import Mathlib

/-!
Verification development for the text-transform scripts of the repository:
`scripts/convert-database-types.py` (flattening of circular TypeScript
`Insert`/`Update` declarations, relationships-marker normalisation),
`scripts/fix-database-types.py` (the analogous generators), and
`scripts/replace-cred-ids.py` (credential-id replacement).

Documents are modelled as `List Char`.  Every regex the scripts use is a fixed
pattern in which each greedy quantifier ranges over a character class disjoint
from the literal that follows it, so matching is deterministic; each pattern is
embedded as a hand-written matcher with the same semantics.  Python `\w` and
`\s` are modelled over ASCII, which covers the TypeScript/JSON documents the
scripts edit.  Python dicts are modelled as association lists with
insert-or-overwrite (`dictInsert`) preserving first-insertion order, exactly
like `dict` assignment.
-/

/-- Python regex `\w` (ASCII range). -/
def wChar (c : Char) : Bool := c.isAlphanum || c == '_'

/-- Python regex `\s` (ASCII range). -/
def sChar (c : Char) : Bool :=
  c == ' ' || c == '\t' || c == '\n' || c == '\r' || c == '\x0b' || c == '\x0c'

/-- The single-quote character used by the scripts' patterns. -/
def squote : Char := Char.ofNat 39

/-- Python `str.rstrip(ch)`-style removal of trailing characters satisfying `p`. -/
def dropEndWhile (p : Char → Bool) (l : List Char) : List Char :=
  (l.reverse.dropWhile p).reverse

/-- Python `str.strip()` (whitespace at both ends). -/
def pyStrip (l : List Char) : List Char :=
  dropEndWhile sChar (l.dropWhile sChar)

/-- Python `str.lower()` (ASCII). -/
def pyLower (l : List Char) : List Char := l.map Char.toLower

/-- Python `needle in haystack` for strings: contiguous-substring test. -/
def containsSeq (pat : List Char) : List Char → Bool
  | [] => pat.isEmpty
  | c :: cs => pat.isPrefixOf (c :: cs) || containsSeq pat cs

/-- Python `str.split('\n')` (keeps empty pieces, as `split` does). -/
def splitOnNl : List Char → List (List Char)
  | [] => [[]]
  | c :: cs =>
    if c == '\n' then [] :: splitOnNl cs
    else
      match splitOnNl cs with
      | [] => [[c]]
      | h :: t => (c :: h) :: t

/-- Python `dict` assignment `d[k] = v`: overwrite in place, else append. -/
def dictInsert (k : String) (v : α) : List (String × α) → List (String × α)
  | [] => [(k, v)]
  | (k', v') :: rest =>
    if k' = k then (k, v) :: rest else (k', v') :: dictInsert k v rest

/-- Python `d[k]` / `k in d` on the association-list model. -/
def dictLookup (k : String) : List (String × α) → Option α
  | [] => none
  | (k', v') :: rest => if k' = k then some v' else dictLookup k rest

/-- `re.findall(r"'(\w+)'", s)` as used for the omit list
(convert-database-types.py line 94): scan left to right; on a match record the
quoted word and resume after the closing quote, otherwise advance one char.
The scan is written with an explicit step budget (one unit per consumed
character) so that it is structurally recursive; `s.length` steps always
suffice because every recursive call drops at least one character. -/
def parseOmitF : Nat → List Char → List String
  | 0, _ => []
  | _ + 1, [] => []
  | fuel + 1, c :: cs =>
    if c == squote then
      match cs.dropWhile wChar with
      | c2 :: r2 =>
        if c2 == squote && !(cs.takeWhile wChar).isEmpty then
          (cs.takeWhile wChar).asString :: parseOmitF fuel r2
        else parseOmitF fuel cs
      | [] => parseOmitF fuel cs
    else parseOmitF fuel cs

/-- The omit-list scan at its sufficient budget. -/
def parseOmit (s : List Char) : List String := parseOmitF s.length s

/-- Parsing of the optional-override object literal
(convert-database-types.py lines 97-105): strip, split on newlines, and for
each line containing a colon record `name.strip().rstrip('?')` mapped to
`type.strip().rstrip(';').rstrip(',')`. -/
def parseOverrides (s : List Char) : List (String × String) :=
  if (pyStrip s).isEmpty then []
  else
    (splitOnNl (pyStrip s)).foldl
      (fun acc line =>
        let line := pyStrip line
        if line.contains ':' then
          let fieldName := dropEndWhile (· == '?') (pyStrip (line.takeWhile (· != ':')))
          let fieldType :=
            dropEndWhile (· == ',')
              (dropEndWhile (· == ';') (pyStrip ((line.dropWhile (· != ':')).drop 1)))
          dictInsert fieldName.asString fieldType.asString acc
        else acc)
      []

/-- The token tested for lexical nullability. -/
def nullTok : List Char := "null".toList

/-- One iteration of the field loop in `replace_insert`
(convert-database-types.py lines 116-128), recording
(field name, emitted-as-optional?, emitted type). -/
def insertFieldSpec (omitFields : List String) (optionalOverrides : List (String × String))
    (f : String × String) : String × Bool × String :=
  if omitFields.contains f.1 then (f.1, true, f.2)
  else
    match dictLookup f.1 optionalOverrides with
    | some t => (f.1, true, t)
    | none =>
      if containsSeq nullTok (pyLower f.2.toList) then (f.1, true, f.2)
      else (f.1, false, f.2)

/-- Rendering of one synthesized field line:
`f"          {name}?: {typ}"` or `f"          {name}: {typ}"`. -/
def renderField (x : String × Bool × String) : List Char :=
  "          ".toList ++ x.1.toList ++
    (if x.2.1 then "?: ".toList else ": ".toList) ++ x.2.2.toList

/-- Python `"\n".join`. -/
def joinNl : List (List Char) → List Char
  | [] => []
  | [l] => l
  | l :: ls => l ++ '\n' :: joinNl ls

/-- The body built by `replace_insert` for a table whose Row mapping is
`fields` (convert-database-types.py lines 114-130). -/
def replaceInsertBody (fields : List (String × String)) (omitFields : List String)
    (optionalOverrides : List (String × String)) : List Char :=
  "Insert: \x7b\n".toList ++
    joinNl (fields.map (fun f => renderField (insertFieldSpec omitFields optionalOverrides f))) ++
    "\n        \x7d".toList

/-- `replace_insert` (convert-database-types.py lines 87-132): given the
Row-field mapping of the first pass, the matched groups (table name, omit
list text, override object text) and the whole matched text, produce the
substitution; a table with no Row mapping returns the match unchanged. -/
def replace_insert (rowFields : List (String × List (String × String)))
    (whole : List Char) (table : String) (omitStr optStr : List Char) : List Char :=
  match dictLookup table rowFields with
  | none => whole
  | some fields => replaceInsertBody fields (parseOmit omitStr) (parseOverrides optStr)

/-- The body built by `replace_update` (convert-database-types.py
lines 147-152): every Row field emitted optional, in order. -/
def replaceUpdateBody (fields : List (String × String)) : List Char :=
  "Update: \x7b\n".toList ++
    joinNl (fields.map (fun f => renderField (f.1, true, f.2))) ++
    "\n        \x7d".toList

/-- `replace_update` (convert-database-types.py lines 137-154). -/
def replace_update (rowFields : List (String × List (String × String)))
    (whole : List Char) (table : String) : List Char :=
  match dictLookup table rowFields with
  | none => whole
  | some fields => replaceUpdateBody fields

/-- `generate_insert_type` of fix-database-types.py (lines 37-50): same
per-field rule without an override map. -/
def generate_insert_type (fields : List (String × String)) (omitFields : List String) :
    List Char :=
  "\x7b\n".toList ++
    joinNl (fields.map (fun f =>
      if omitFields.contains f.1 then renderField (f.1, true, f.2)
      else if containsSeq nullTok (pyLower f.2.toList) then renderField (f.1, true, f.2)
      else renderField (f.1, false, f.2))) ++
    "\n        \x7d".toList

/-- `generate_update_type` of fix-database-types.py (lines 52-57). -/
def generate_update_type (fields : List (String × String)) : List Char :=
  "\x7b\n".toList ++
    joinNl (fields.map (fun f => renderField (f.1, true, f.2))) ++
    "\n        \x7d".toList

/-- Modelled from the spec (section 3, FieldSpec): lexical nullability, "the
type expression contains a null-indicating token". -/
def specNullable (t : String) : Bool := containsSeq nullTok (pyLower t.toList)

/-- Modelled from the spec (section 4.2): the per-field decision rules of the
InsertTypeSynthesizer, stated the way the spec states them, returning
(optional?, emitted type). -/
def specInsertDecision (omitSet : List String) (ovrMap : List (String × String))
    (name rowTy : String) : Bool × String :=
  if name ∈ omitSet then (true, rowTy)
  else
    match dictLookup name ovrMap with
    | some t => (true, t)
    | none => if specNullable rowTy then (true, rowTy) else (false, rowTy)

/-! ## Pattern matchers for the whole-document passes

Every pattern the script compiles is fixed text in which each greedy
quantifier ranges over a character class disjoint from the literal that
follows it, so matching is deterministic and each pattern can be embedded as
a structural matcher.  The literal `'` is spelled through `squote` and braces
through their escapes. -/

/-- A single-quote as a one-character literal piece. -/
def q : List Char := [squote]

/-- Expect a literal at the head of the input; return the rest on success. -/
def dropLit : List Char → List Char → Option (List Char)
  | [], s => some s
  | _ :: _, [] => none
  | p :: ps, c :: cs => if c == p then dropLit ps cs else none

/-- The literal `Update: \x7b` opening both relationship patterns. -/
def updOpen : List Char := "Update: \x7b".toList

/-- Matcher for the leading `Update: \{[^}]+\}` of the relationship patterns:
returns the span matched by `[^}]+` and the rest after the closing brace. -/
def updAt (t : List Char) : Option (List Char × List Char) :=
  match dropLit updOpen t with
  | none => none
  | some t1 =>
    let a := t1.takeWhile (· != '\x7d')
    if a.isEmpty then none
    else
      match t1.dropWhile (· != '\x7d') with
      | _ :: t2 => some (a, t2)
      | [] => none

/-- The inserted marker `\n        Relationships: []`. -/
def relMarker : List Char := "\n        Relationships: []".toList

/-- Groups of `relationships_pattern`
`(Update: \{[^}]+\})\n(\s*\})\n(\s*)(\w+):` (convert-database-types.py
lines 164-167): `a` is the `[^}]+` span of group 1, `w2` the whitespace of
group 2, `w3` group 3, `g4` group 4. -/
structure RelG where
  a : List Char
  w2 : List Char
  w3 : List Char
  g4 : List Char
deriving DecidableEq

/-- Expect one literal character at the head of the input. -/
def expectChar (c : Char) : List Char → Option (List Char)
  | x :: r => if x == c then some r else none
  | [] => none

/-- Matcher for `relationships_pattern` at the head of the input. -/
def matchRel (t : List Char) : Option (RelG × List Char) :=
  (updAt t).bind fun ar =>
  (expectChar '\n' ar.2).bind fun r1 =>
  let w2 := r1.takeWhile sChar
  (expectChar '\x7d' (r1.dropWhile sChar)).bind fun r2 =>
  (expectChar '\n' r2).bind fun r3 =>
  let w3 := r3.takeWhile sChar
  let r4 := r3.dropWhile sChar
  let g4 := r4.takeWhile wChar
  if g4.isEmpty then none
  else
    (expectChar ':' (r4.dropWhile wChar)).bind fun r5 =>
    some ((⟨ar.1, w2, w3, g4⟩ : RelG), r5)

/-- The text matched by `relationships_pattern` for groups `g`. -/
def relMText (g : RelG) : List Char :=
  updOpen ++ g.a ++ '\x7d' :: '\n' :: g.w2 ++ '\x7d' :: '\n' :: g.w3 ++ g.g4 ++ [':']

/-- The replacement `add_relationships` produces (lines 169-174): the matched
text with the marker inserted after the Update block. -/
def relRep (g : RelG) : List Char :=
  updOpen ++ g.a ++ '\x7d' ::
    (relMarker ++ '\n' :: g.w2 ++ '\x7d' :: '\n' :: g.w3 ++ g.g4 ++ [':'])

/-- Groups of `last_table_pattern`
`(Update: \{[^}]+\})\n(\s*\})\n(\s*\})\n(\s*)(Functions:|Views:)`
(lines 184-187). -/
structure LastG where
  a : List Char
  w2 : List Char
  w3 : List Char
  w4 : List Char
  kw : List Char
deriving DecidableEq

/-- Matcher for `last_table_pattern` at the head of the input. -/
def matchLast (t : List Char) : Option (LastG × List Char) :=
  (updAt t).bind fun ar =>
  (expectChar '\n' ar.2).bind fun r1 =>
  let w2 := r1.takeWhile sChar
  (expectChar '\x7d' (r1.dropWhile sChar)).bind fun r2 =>
  (expectChar '\n' r2).bind fun r3 =>
  let w3 := r3.takeWhile sChar
  (expectChar '\x7d' (r3.dropWhile sChar)).bind fun r4 =>
  (expectChar '\n' r4).bind fun r5 =>
  let w4 := r5.takeWhile sChar
  let r6 := r5.dropWhile sChar
  match dropLit "Functions:".toList r6 with
  | some r7 => some ((⟨ar.1, w2, w3, w4, "Functions:".toList⟩ : LastG), r7)
  | none =>
    match dropLit "Views:".toList r6 with
    | some r7 => some ((⟨ar.1, w2, w3, w4, "Views:".toList⟩ : LastG), r7)
    | none => none

/-- The replacement `add_relationships_last` produces (lines 189-195). -/
def lastRep (g : LastG) : List Char :=
  updOpen ++ g.a ++ '\x7d' ::
    (relMarker ++ '\n' :: g.w2 ++ '\x7d' :: '\n' :: g.w3 ++ '\x7d' :: '\n' :: g.w4 ++ g.kw)

/-- Groups of `insert_pattern`
`Insert: Omit<Database\['(public|genesis)'\]\['Tables'\]\['(\w+)'\]\['Row'\], ([^>]+)> & \{\s*([^}]*)\}`
(lines 42-45).  `ws` is the span of the `\s*` before group 4. -/
structure InsG where
  schema : List Char
  table : List Char
  omitStr : List Char
  ws : List Char
  optStr : List Char
deriving DecidableEq

/-- Literal pieces of `insert_pattern` and `update_pattern`. -/
def insLitA : List Char := "Insert: Omit<Database[".toList ++ q

/-- `']['Tables']['`. -/
def litTables : List Char := q ++ "][".toList ++ q ++ "Tables".toList ++ q ++ "][".toList ++ q

/-- `']['Row'], `. -/
def litRow : List Char := q ++ "][".toList ++ q ++ "Row".toList ++ q ++ "], ".toList

/-- `> & \x7b`. -/
def litAmp : List Char := "> & \x7b".toList

/-- `Update: Partial<Database['`. -/
def updLitA : List Char := "Update: Partial<Database[".toList ++ q

/-- `']['Insert']>`. -/
def litInsertClose : List Char := q ++ "][".toList ++ q ++ "Insert".toList ++ q ++ "]>".toList

/-- The `(public|genesis)` alternation: try `public` first, then `genesis`. -/
def matchSchema (t : List Char) : Option (List Char × List Char) :=
  match dropLit "public".toList t with
  | some r => some ("public".toList, r)
  | none =>
    match dropLit "genesis".toList t with
    | some r => some ("genesis".toList, r)
    | none => none

/-- Matcher for `insert_pattern` at the head of the input. -/
def matchIns (t : List Char) : Option (InsG × List Char) :=
  match dropLit insLitA t with
  | none => none
  | some t1 =>
    match matchSchema t1 with
    | none => none
    | some (sch, t2) =>
      match dropLit litTables t2 with
      | none => none
      | some t3 =>
        let tbl := t3.takeWhile wChar
        if tbl.isEmpty then none
        else
          match dropLit litRow (t3.dropWhile wChar) with
          | none => none
          | some t4 =>
            let om := t4.takeWhile (· != '>')
            if om.isEmpty then none
            else
              match dropLit litAmp (t4.dropWhile (· != '>')) with
              | none => none
              | some t5 =>
                let w := t5.takeWhile sChar
                let t6 := t5.dropWhile sChar
                let ov := t6.takeWhile (· != '\x7d')
                match t6.dropWhile (· != '\x7d') with
                | _ :: t7 => some (⟨sch, tbl, om, w, ov⟩, t7)
                | [] => none

/-- The text matched by `insert_pattern` for groups `g` (its `group(0)`). -/
def insMText (g : InsG) : List Char :=
  insLitA ++ g.schema ++ litTables ++ g.table ++ litRow ++ g.omitStr ++ litAmp ++
    g.ws ++ g.optStr ++ ['\x7d']

/-- Matcher for `update_pattern` at the head of the input (lines 49-51). -/
def matchUpdPat (t : List Char) : Option ((List Char × List Char) × List Char) :=
  match dropLit updLitA t with
  | none => none
  | some t1 =>
    match matchSchema t1 with
    | none => none
    | some (sch, t2) =>
      match dropLit litTables t2 with
      | none => none
      | some t3 =>
        let tbl := t3.takeWhile wChar
        if tbl.isEmpty then none
        else
          match dropLit litInsertClose (t3.dropWhile wChar) with
          | none => none
          | some t4 => some ((sch, tbl), t4)

/-- The text matched by `update_pattern` (its `group(0)`). -/
def updPatMText (sch tbl : List Char) : List Char :=
  updLitA ++ sch ++ litTables ++ tbl ++ litInsertClose

/-! ## The first pass: collecting Row fields -/

/-- Matcher for `field_pattern` `(\w+):\s*([^\n;]+)` at the head of a Row
block (lines 72-79): word, colon, whitespace, then a nonempty run of
characters other than newline and semicolon.  Returns (name, raw type text)
and the rest.  (When the run after the whitespace is empty Python would
backtrack into trailing non-newline whitespace and produce a type that strips
to the empty string, which the `if name and typ` guard discards just like the
failure here, so the dictionary built is identical.) -/
def matchField (t : List Char) : Option ((List Char × List Char) × List Char) :=
  let n := t.takeWhile wChar
  if n.isEmpty then none
  else
    match t.dropWhile wChar with
    | ':' :: r1 =>
      let r2 := r1.dropWhile sChar
      let ty := r2.takeWhile (fun c => !(c == '\n' || c == ';'))
      if ty.isEmpty then none
      else some ((n, ty), r2.dropWhile (fun c => !(c == '\n' || c == ';')))
    | _ => none

/-- `re.finditer(field_pattern, fields_str)` building the per-table field
dict (lines 70-79): the cleaned type is `group(2).strip()` then
`.rstrip(';').strip()`, and an entry is stored only when name and type are
nonempty.  Fueled scan, one unit per consumed character. -/
def parseFieldsF : Nat → List Char → List (String × String) → List (String × String)
  | 0, _, acc => acc
  | _ + 1, [], acc => acc
  | fuel + 1, c :: cs, acc =>
    match matchField (c :: cs) with
    | some ((n, ty), rest) =>
      let tyClean := pyStrip (dropEndWhile (· == ';') (pyStrip ty))
      parseFieldsF fuel rest
        (if tyClean.isEmpty then acc else dictInsert n.asString tyClean.asString acc)
    | none => parseFieldsF fuel cs acc

/-- The field dict of one Row block. -/
def parseFields (s : List Char) : List (String × String) := parseFieldsF s.length s []

/-- Matcher for `row_pattern` `(\w+): \{\s*Row: \{([^}]+)\}\s*Insert:`
(lines 59-62) at the head of the input: returns (table name, raw Row text)
and the rest. -/
def matchRow (t : List Char) : Option ((List Char × List Char) × List Char) :=
  let n := t.takeWhile wChar
  if n.isEmpty then none
  else
    match dropLit ": \x7b".toList (t.dropWhile wChar) with
    | none => none
    | some t1 =>
      match dropLit "Row: \x7b".toList (t1.dropWhile sChar) with
      | none => none
      | some t2 =>
        let body := t2.takeWhile (· != '\x7d')
        if body.isEmpty then none
        else
          match t2.dropWhile (· != '\x7d') with
          | _ :: t3 =>
            match dropLit "Insert:".toList (t3.dropWhile sChar) with
            | some t4 => some ((n, body), t4)
            | none => none
          | [] => none

/-- `row_pattern.finditer(content)` building `row_fields` (lines 64-82):
non-overlapping left-to-right scan; `row_fields[table_name] = fields`
overwrites in place like a Python dict.  Fueled scan. -/
def scanRowsF : Nat → List Char → List (String × List (String × String)) →
    List (String × List (String × String))
  | 0, _, acc => acc
  | _ + 1, [], acc => acc
  | fuel + 1, c :: cs, acc =>
    match matchRow (c :: cs) with
    | some ((n, body), rest) =>
      scanRowsF fuel rest (dictInsert n.asString (parseFields body) acc)
    | none => scanRowsF fuel cs acc

/-- The `row_fields` mapping of the first pass. -/
def parseRowFields (s : List Char) : List (String × List (String × String)) :=
  scanRowsF s.length s []

/-! ## `re.sub` and the four substitution passes -/

/-- `pattern.sub(f, content)` for a pattern that never matches the empty
string: scan left to right; on a match emit the replacement and resume after
the matched text, otherwise emit one character and move on.  Fueled with one
unit per consumed character, so `s.length` units always suffice. -/
def subScanF (step : List Char → Option (List Char × List Char)) :
    Nat → List Char → List Char
  | 0, s => s
  | _ + 1, [] => []
  | fuel + 1, c :: cs =>
    match step (c :: cs) with
    | some (r, t) => r ++ subScanF step fuel t
    | none => c :: subScanF step fuel cs

/-- Step function of the relationships pass: replacement and rest. -/
def relStep (t : List Char) : Option (List Char × List Char) :=
  match matchRel t with
  | some (g, rest) => some (relRep g, rest)
  | none => none

/-- One `relationships_pattern.sub(add_relationships, content)` pass. -/
def relSub (s : List Char) : List Char := subScanF relStep s.length s

/-- Step function of the last-table pass. -/
def lastStep (t : List Char) : Option (List Char × List Char) :=
  match matchLast t with
  | some (g, rest) => some (lastRep g, rest)
  | none => none

/-- `last_table_pattern.sub(add_relationships_last, content)` (line 197). -/
def lastSub (s : List Char) : List Char := subScanF lastStep s.length s

/-- Step function of the Insert pass, driven by the collected Row fields:
`replace_insert` synthesizes the flat type, or keeps `group(0)` when the
table has no Row mapping (lines 87-134). -/
def insStep (rowFields : List (String × List (String × String)))
    (t : List Char) : Option (List Char × List Char) :=
  match matchIns t with
  | some (g, rest) =>
    some (replace_insert rowFields (insMText g) g.table.asString g.omitStr g.optStr, rest)
  | none => none

/-- `insert_pattern.sub(replace_insert, content)` (line 134). -/
def insertSub (rowFields : List (String × List (String × String)))
    (s : List Char) : List Char := subScanF (insStep rowFields) s.length s

/-- Step function of the Update pass (lines 137-156). -/
def updStep (rowFields : List (String × List (String × String)))
    (t : List Char) : Option (List Char × List Char) :=
  match matchUpdPat t with
  | some ((sch, tbl), rest) =>
    some (replace_update rowFields (updPatMText sch tbl) tbl.asString, rest)
  | none => none

/-- `update_pattern.sub(replace_update, content)` (line 156). -/
def updateSub (rowFields : List (String × List (String × String)))
    (s : List Char) : List Char := subScanF (updStep rowFields) s.length s

/-- The relationships loop (lines 177-180): re-apply the substitution while
the document keeps changing, for at most `n` passes.  (Python's loop always
runs one pass even on a fixed document; that pass rewrites nothing, so the
result is the same.) -/
def relLoopF : Nat → List Char → List Char
  | 0, s => s
  | n + 1, s => if relSub s == s then s else relLoopF n (relSub s)

/-- A live site: the suffix begins with an `Update: \{[^}]+\}` block that is
not already followed by the relationships marker.  Each pass of `relSub`
kills at least one live site and never creates one, which bounds the loop. -/
def liveAt (t : List Char) : Bool :=
  match updAt t with
  | some (_, r) => !(relMarker.isPrefixOf r)
  | none => false

/-- The number of live sites of a document: the termination measure of the
relationships loop. -/
def relPhi (s : List Char) : Nat := s.tails.countP liveAt

/-- The part of the matched text through the closing brace of the Update
block: `Update: \{A\}`. -/
def relHead (g : RelG) : List Char := updOpen ++ g.a ++ ['\x7d']

/-- The part of the matched text after the Update block:
`\n w2 \} \n w3 g4 :`. -/
def relTail (g : RelG) : List Char :=
  '\n' :: g.w2 ++ '\x7d' :: '\n' :: g.w3 ++ g.g4 ++ [':']

/-- Well-formedness of the groups produced by `matchRel`: contents match the
character classes of the pattern. -/
def RelGood (g : RelG) : Prop :=
  g.a ≠ [] ∧ (∀ c ∈ g.a, c ≠ '\x7d') ∧ (∀ c ∈ g.w2, sChar c = true) ∧
  (∀ c ∈ g.w3, sChar c = true) ∧ g.g4 ≠ [] ∧ (∀ c ∈ g.g4, wChar c = true)

/-- The live sites of `a ++ b` that begin inside `a`: the part of `relPhi`
contributed by positions of the first summand. -/
def crossPhi : List Char → List Char → Nat
  | [], _ => 0
  | c :: a, b => (if liveAt (c :: (a ++ b)) then 1 else 0) + crossPhi a b

/-- The fixed point the relationships loop reaches: `relPhi s + 1` passes
always suffice (theorem `c6_rel_loop_terminates`). -/
def relFix (s : List Char) : List Char := relLoopF (relPhi s + 1) s

/-- `main` of convert-database-types.py (lines 26-199): collect Row fields
from the original content, then the Insert pass, the Update pass, the
relationships loop and the last-table pass. -/
def convertTransform (s : List Char) : List Char :=
  lastSub (relFix (updateSub (parseRowFields s) (insertSub (parseRowFields s) s)))

/-- The write step of `main` (lines 201-208): the file is rewritten only when
the content changed; returns (content on disk after the run, write happened). -/
def mainRun (s : List Char) : List Char × Bool :=
  if convertTransform s == s then (s, false) else (convertTransform s, true)

/-! ## replace-cred-ids.py -/

/-- Python `content.count(old)`: non-overlapping occurrence count, left to
right.  Fueled scan (the patterns used are never empty). -/
def pyCountF (pat : List Char) : Nat → List Char → Nat
  | 0, _ => 0
  | _ + 1, [] => 0
  | fuel + 1, c :: cs =>
    if pat.isPrefixOf (c :: cs) then 1 + pyCountF pat fuel ((c :: cs).drop pat.length)
    else pyCountF pat fuel cs

/-- `content.count(old)` at its sufficient budget. -/
def pyCount (pat s : List Char) : Nat := pyCountF pat s.length s

/-- Python `content.replace(old, new)`: replace all non-overlapping
occurrences, left to right.  Fueled scan. -/
def pyReplaceF (pat rep : List Char) : Nat → List Char → List Char
  | 0, s => s
  | _ + 1, [] => []
  | fuel + 1, c :: cs =>
    if pat.isPrefixOf (c :: cs) then rep ++ pyReplaceF pat rep fuel ((c :: cs).drop pat.length)
    else c :: pyReplaceF pat rep fuel cs

/-- `content.replace(old, new)` at its sufficient budget. -/
def pyReplace (pat rep s : List Char) : List Char := pyReplaceF pat rep s.length s

/-- `CREDENTIAL_ID_MAP` of replace-cred-ids.py (lines 14-39), in source
order. -/
def CREDENTIAL_ID_MAP : List (String × String) :=
  [("kThf5Npwf1zJFn9l", "YOUR_CREDENTIAL_GMAIL_ID"),
   ("tUD6GQ7CnHfvUM7k", "YOUR_CREDENTIAL_GMAIL_ID"),
   ("zfHBUnz62UkbN9cm", "YOUR_CREDENTIAL_GMAIL_ID"),
   ("QKb5WqKXZ29v15Qk", "YOUR_CREDENTIAL_POSTGRES_ID"),
   ("2EUpgH0WFkM3Lr6E", "YOUR_CREDENTIAL_GOOGLE_SHEETS_ID"),
   ("p8ESE0UMGdJsRvZv", "YOUR_CREDENTIAL_GOOGLE_SHEETS_ID"),
   ("EzDErZcUtMKUzyRO", "YOUR_CREDENTIAL_OPENAI_ID"),
   ("aoWKHXiRqhK3nMDW", "YOUR_CREDENTIAL_ANTHROPIC_ID"),
   ("9z6Laho4Xwr3N9sS", "YOUR_CREDENTIAL_GOOGLE_CSE_QUERY_ID"),
   ("6DunH8n5TZY3tjwT", "YOUR_CREDENTIAL_GOOGLE_CSE_QUERY_ID"),
   ("uNNf74d1EVpcGBgo", "YOUR_CREDENTIAL_GOOGLE_CSE_HEADER_ID")]

/-- The replacement loop of one file (replace-cred-ids.py lines 62-69):
fold over the credential map, counting and applying `str.replace`.
Returns (new content, total replacement count). -/
def applyCredMap (content : List Char) : List Char × Nat :=
  CREDENTIAL_ID_MAP.foldl
    (fun st kv =>
      let cnt := pyCount kv.1.toList st.1
      if cnt ≠ 0 then (pyReplace kv.1.toList kv.2.toList st.1, st.2 + cnt) else st)
    (content, 0)

/-- The on-disk content of one file after the per-file body (lines 57-82):
the file is rewritten only when at least one id was replaced and the result
still parses as JSON; a failed parse leaves the file unchanged (`continue`).
`json.loads` is an external library call, modelled as the abstract validity
predicate `jsonValid`. -/
def processFile (jsonValid : List Char → Bool) (content : List Char) : List Char :=
  let res := applyCredMap content
  if res.2 ≠ 0 then (if jsonValid res.1 then res.1 else content) else content

/-- The whole per-directory loop (lines 53-82): each file is processed
independently, in order; an invalid parse only `continue`s to the next
file. -/
def processFiles (jsonValid : List Char → Bool) (files : List (List Char)) :
    List (List Char) := files.map (processFile jsonValid)

/-! ## Decomposition of the last-table pattern -/

/-- The part of the last-table matched text through the closing brace of the
Update block: `Update: \{A\}`. -/
def lastHead (g : LastG) : List Char := updOpen ++ g.a ++ ['\x7d']

/-- The part of the last-table matched text after the Update block:
`\n w2 \} \n w3 \} \n w4 kw`. -/
def lastTail (g : LastG) : List Char :=
  '\n' :: g.w2 ++ '\x7d' :: '\n' :: g.w3 ++ '\x7d' :: '\n' :: g.w4 ++ g.kw

/-- The text matched by `last_table_pattern` for groups `g` (its `group(0)`). -/
def lastMText (g : LastG) : List Char :=
  updOpen ++ g.a ++ '\x7d' :: '\n' :: g.w2 ++ '\x7d' :: '\n' :: g.w3 ++
    '\x7d' :: '\n' :: g.w4 ++ g.kw

/-- Well-formedness of the groups produced by `matchLast`: contents match the
character classes of the pattern. -/
def LastGood (g : LastG) : Prop :=
  g.a ≠ [] ∧ (∀ c ∈ g.a, c ≠ '\x7d') ∧ (∀ c ∈ g.w2, sChar c = true) ∧
  (∀ c ∈ g.w3, sChar c = true) ∧ (∀ c ∈ g.w4, sChar c = true) ∧
  (g.kw = "Functions:".toList ∨ g.kw = "Views:".toList)

theorem insertFieldSpec_fst (o : List String) (v : List (String × String))
    (f : String × String) : (insertFieldSpec o v f).1 = f.1 := by
  unfold insertFieldSpec
  split
  · rfl
  · split
    · rfl
    · split <;> rfl

theorem insertFieldSpec_eq_spec (o : List String) (v : List (String × String))
    (f : String × String) :
    insertFieldSpec o v f = (f.1, specInsertDecision o v f.1 f.2) := by
  unfold insertFieldSpec specInsertDecision specNullable
  by_cases ho : f.1 ∈ o
  · simp [ho]
  · simp [ho]
    cases dictLookup f.1 v <;> simp <;> split <;> rfl

/-- C1: for every table that has a Row mapping, the synthesized Insert type
emits exactly the Row fields, in Row declaration order, and each field is
decided by the spec's priority rules: omit → optional with Row type, else
override → optional with override type, else lexically nullable → optional
with Row type, else required with Row type.  The same per-field rules (with an
empty override map) are implemented by `generate_insert_type` of
fix-database-types.py. -/
theorem c1_insert_emission (rowFields : List (String × List (String × String)))
    (whole : List Char) (table : String) (omitStr optStr : List Char)
    (fields : List (String × String))
    (hlk : dictLookup table rowFields = some fields) :
    replace_insert rowFields whole table omitStr optStr =
      "Insert: \x7b\n".toList ++
        joinNl ((fields.map (insertFieldSpec (parseOmit omitStr) (parseOverrides optStr))).map
          renderField) ++
        "\n        \x7d".toList
    ∧ (fields.map (insertFieldSpec (parseOmit omitStr) (parseOverrides optStr))).map
        (fun x => x.1) = fields.map (fun f => f.1)
    ∧ (∀ f ∈ fields,
        insertFieldSpec (parseOmit omitStr) (parseOverrides optStr) f =
          (f.1, specInsertDecision (parseOmit omitStr) (parseOverrides optStr) f.1 f.2))
    ∧ (∀ (fs : List (String × String)) (om : List String),
        generate_insert_type fs om =
          "\x7b\n".toList ++
            joinNl ((fs.map (fun f => (f.1, specInsertDecision om [] f.1 f.2))).map
              renderField) ++
            "\n        \x7d".toList) := by
  refine ⟨?_, ?_, ?_, ?_⟩
  · unfold replace_insert
    rw [hlk]
    unfold replaceInsertBody
    rw [List.map_map]
    rfl
  · rw [List.map_map]
    apply List.map_congr_left
    intro f _
    exact insertFieldSpec_fst _ _ f
  · intro f _
    exact insertFieldSpec_eq_spec _ _ f
  · intro fs om
    unfold generate_insert_type
    rw [List.map_map]
    congr 1
    congr 1
    apply congrArg
    apply List.map_congr_left
    intro f _
    simp only [Function.comp]
    rw [show ((f.1, specInsertDecision om [] f.1 f.2) : String × Bool × String) =
        insertFieldSpec om [] f from (insertFieldSpec_eq_spec om [] f).symm]
    by_cases h1 : f.1 ∈ om
    · simp [insertFieldSpec, h1]
    · simp [insertFieldSpec, dictLookup, h1]
      split
      · rfl
      · rfl

/-- Witness for C1 at a concrete table. -/
theorem c1_insert_emission_witness :
    replace_insert [("campaigns", [("id", "string"), ("note", "string | null")])]
        [] "campaigns" [] [] =
      "Insert: \x7b\n".toList ++
        joinNl (([("id", "string"), ("note", "string | null")].map
          (insertFieldSpec (parseOmit []) (parseOverrides []))).map renderField) ++
        "\n        \x7d".toList
    ∧ ([("id", "string"), ("note", "string | null")].map
        (insertFieldSpec (parseOmit []) (parseOverrides []))).map (fun x => x.1) =
        [("id", "string"), ("note", "string | null")].map (fun f => f.1) := by
  have h := c1_insert_emission [("campaigns", [("id", "string"), ("note", "string | null")])]
    [] "campaigns" [] [] [("id", "string"), ("note", "string | null")] (by decide)
  exact ⟨h.1, h.2.1⟩

/-- C2: for every table with a discoverable Row mapping, the synthesized
Update type has exactly as many fields as the Row mapping, every field is
optional with its Row-derived type, and fields appear in Row declaration
order; `generate_update_type` of fix-database-types.py emits the same shape. -/
theorem c2_update_all_optional (rowFields : List (String × List (String × String)))
    (whole : List Char) (table : String) (fields : List (String × String))
    (hlk : dictLookup table rowFields = some fields) :
    replace_update rowFields whole table =
      "Update: \x7b\n".toList ++
        joinNl ((fields.map (fun f => (f.1, true, f.2))).map renderField) ++
        "\n        \x7d".toList
    ∧ (fields.map (fun f => (f.1, true, f.2))).length = fields.length
    ∧ (fields.map (fun f => ((f.1, true, f.2) : String × Bool × String))).map (fun x => x.1) =
        fields.map (fun f => f.1)
    ∧ (∀ x ∈ fields.map (fun f => ((f.1, true, f.2) : String × Bool × String)), x.2.1 = true)
    ∧ (∀ fs : List (String × String),
        generate_update_type fs =
          "\x7b\n".toList ++
            joinNl ((fs.map (fun f => (f.1, true, f.2))).map renderField) ++
            "\n        \x7d".toList) := by
  refine ⟨?_, ?_, ?_, ?_, ?_⟩
  · unfold replace_update
    rw [hlk]
    unfold replaceUpdateBody
    rw [List.map_map]
    rfl
  · exact List.length_map _ _
  · rw [List.map_map]
    rfl
  · intro x hx
    rw [List.mem_map] at hx
    obtain ⟨f, _, rfl⟩ := hx
    rfl
  · intro fs
    unfold generate_update_type
    rw [List.map_map]
    rfl

/-- Witness for C2 at a concrete table. -/
theorem c2_update_all_optional_witness :
    replace_update [("campaigns", [("id", "string"), ("name", "string")])] [] "campaigns" =
      "Update: \x7b\n".toList ++
        joinNl (([("id", "string"), ("name", "string")].map
          (fun f => (f.1, true, f.2))).map renderField) ++
        "\n        \x7d".toList := by
  exact (c2_update_all_optional [("campaigns", [("id", "string"), ("name", "string")])]
    [] "campaigns" [("id", "string"), ("name", "string")] (by decide)).1

/-- C3: a circular Insert or Update declaration whose table has no entry in
the Row-field mapping is returned byte-for-byte unchanged
(convert-database-types.py lines 108-110 and 141-143). -/
theorem c3_missing_row_mapping_noop (rowFields : List (String × List (String × String)))
    (whole : List Char) (table : String) (omitStr optStr : List Char)
    (hlk : dictLookup table rowFields = none) :
    replace_insert rowFields whole table omitStr optStr = whole
    ∧ replace_update rowFields whole table = whole := by
  constructor
  · unfold replace_insert
    rw [hlk]
  · unfold replace_update
    rw [hlk]

/-- Witness for C3 at a concrete missing table. -/
theorem c3_missing_row_mapping_noop_witness :
    replace_insert [("other", [("id", "string")])] "ORIGINAL".toList "campaigns" [] [] =
      "ORIGINAL".toList
    ∧ replace_update [("other", [("id", "string")])] "ORIGINAL".toList "campaigns" =
      "ORIGINAL".toList :=
  c3_missing_row_mapping_noop [("other", [("id", "string")])] "ORIGINAL".toList
    "campaigns" [] [] (by decide)

/-- Counterexample to C5 as stated: the omit list may name a field that is not
in the Row mapping; such a name does not appear in the synthesized Insert type
at all.  Here the omit text is `'b'`, the Row mapping has only `a`, and the
emitted field names are exactly `["a"]`. -/
theorem c5_cex :
    parseOmit [squote, 'b', squote] = ["b"]
    ∧ ¬ ("b" ∈ ((([("a", "string")] : List (String × String)).map
        (insertFieldSpec (parseOmit [squote, 'b', squote]) (parseOverrides []))).map
          (fun x => x.1))) := by
  constructor
  · decide
  · decide

/-- C5 (amended): every field name in the OmitSet that also occurs in the Row
mapping appears in the synthesized Insert type marked optional, with its
Row-derived type. -/
theorem c5_omit_optional (rowFields : List (String × List (String × String)))
    (table : String) (omitStr optStr : List Char) (fields : List (String × String))
    (name ty : String)
    (hlk : dictLookup table rowFields = some fields)
    (hmem : (name, ty) ∈ fields)
    (homit : name ∈ parseOmit omitStr) :
    (name, true, ty) ∈
      fields.map (insertFieldSpec (parseOmit omitStr) (parseOverrides optStr)) := by
  rw [List.mem_map]
  refine ⟨(name, ty), hmem, ?_⟩
  simp [insertFieldSpec, homit]

/-- Witness for C5 (amended) at a concrete table. -/
theorem c5_omit_optional_witness :
    ("id", true, "string") ∈
      ([("id", "string"), ("name", "string")] : List (String × String)).map
        (insertFieldSpec (parseOmit [squote, 'i', 'd', squote]) (parseOverrides [])) :=
  c5_omit_optional [("t", [("id", "string"), ("name", "string")])] "t"
    [squote, 'i', 'd', squote] [] [("id", "string"), ("name", "string")]
    "id" "string" (by decide) (by decide) (by decide)

/-- C9: for a field in neither the OmitSet nor the OverrideMap, the synthesized
Insert marks it optional if and only if the lowercased Row-derived type
contains the substring `null` anywhere (convert-database-types.py lines
123-125); the emitted name and type are the Row-derived ones. -/
theorem c9_null_substring (omitFields : List String)
    (optionalOverrides : List (String × String)) (name ty : String)
    (homit : omitFields.contains name = false)
    (hovr : dictLookup name optionalOverrides = none) :
    insertFieldSpec omitFields optionalOverrides (name, ty) =
      (name, containsSeq nullTok (pyLower ty.toList), ty) := by
  unfold insertFieldSpec
  simp only [homit, Bool.false_eq_true, if_false]
  rw [hovr]
  dsimp only
  split
  · rename_i h
    rw [h]
  · rename_i h
    rw [Bool.not_eq_true] at h
    rw [h]

/-- Witness for C9: the type `Annullable` (which permits no null value but
contains `null` inside a longer token once lowercased) is emitted optional. -/
theorem c9_null_substring_witness :
    insertFieldSpec [] [] ("x", "Annullable") = ("x", true, "Annullable") := by
  have h := c9_null_substring [] [] "x" "Annullable" (by decide) (by decide)
  rw [h]
  decide

/-! ## Substitution passes on documents without matches -/

theorem subScanF_id (step : List Char → Option (List Char × List Char))
    (fuel : Nat) (s : List Char) (h : ∀ t ∈ s.tails, step t = none) :
    subScanF step fuel s = s := by
  induction fuel generalizing s with
  | zero => rfl
  | succ n ih =>
    cases s with
    | nil => rfl
    | cons c cs =>
      have h0 : step (c :: cs) = none := h (c :: cs) (by simp)
      rw [subScanF, h0]
      have hsub : ∀ t ∈ cs.tails, step t = none := by
        intro t ht
        apply h
        rw [List.mem_tails] at ht ⊢
        exact ht.trans (List.suffix_cons c cs)
      rw [ih cs hsub]

theorem relSub_id_of_no_match (s : List Char)
    (hrel : ∀ t ∈ s.tails, matchRel t = none) : relSub s = s := by
  apply subScanF_id
  intro t ht
  unfold relStep
  rw [hrel t ht]

theorem lastSub_id_of_no_match (s : List Char)
    (hlast : ∀ t ∈ s.tails, matchLast t = none) : lastSub s = s := by
  apply subScanF_id
  intro t ht
  unfold lastStep
  rw [hlast t ht]

/-- C8: the output file is written only when the transformed text differs
from the text read (convert-database-types.py lines 201-208): when every
pass leaves the content equal to the original, no write happens and the
content on disk is the original; conversely a write implies the transform
changed the text. -/
theorem c8_write_only_on_change (s : List Char) (h : convertTransform s = s) :
    mainRun s = (s, false) ∧ (∀ t, (mainRun t).2 = true → convertTransform t ≠ t) := by
  constructor
  · unfold mainRun
    rw [h]
    simp
  · intro t ht
    unfold mainRun at ht
    by_cases hc : convertTransform t == t
    · rw [if_pos hc] at ht
      simp at ht
    · intro he
      rw [he] at hc
      simp at hc

/-- Witness for C8 on a small unchanged document. -/
theorem c8_write_only_on_change_witness :
    convertTransform "x".toList = "x".toList ∧
      mainRun "x".toList = ("x".toList, false) :=
  ⟨by decide, (c8_write_only_on_change "x".toList (by decide)).1⟩

/-- C10: the credential-id replacement is atomic per file with respect to
JSON validity: a file is rewritten only when at least one id was replaced
and the replaced text still parses as JSON; when the parse fails the file is
left byte-for-byte unchanged and the remaining files are processed exactly
as they would be on their own. -/
theorem c10_cred_replace_atomic (jsonValid : List Char → Bool)
    (pre post : List (List Char)) (c : List Char)
    (hbad : jsonValid (applyCredMap c).1 = false) :
    processFile jsonValid c = c
    ∧ processFiles jsonValid (pre ++ c :: post) =
        processFiles jsonValid pre ++ c :: processFiles jsonValid post
    ∧ (∀ d, processFile jsonValid d =
        if (applyCredMap d).2 ≠ 0 ∧ jsonValid (applyCredMap d).1 = true
        then (applyCredMap d).1 else d) := by
  have h1 : processFile jsonValid c = c := by
    simp [processFile, hbad]
  refine ⟨h1, ?_, ?_⟩
  · unfold processFiles
    rw [List.map_append, List.map_cons, h1]
  · intro d
    simp only [processFile]
    by_cases hz : (applyCredMap d).2 ≠ 0
    · rw [if_pos hz]
      by_cases hv : jsonValid (applyCredMap d).1 = true
      · rw [if_pos hv, if_pos ⟨hz, hv⟩]
      · rw [if_neg hv, if_neg (fun hh => hv hh.2)]
    · rw [if_neg hz, if_neg (fun hh => hz hh.1)]

/-- Witness for C10: a file containing a credential id, with a failing JSON
check, is left unchanged. -/
theorem c10_cred_replace_atomic_witness :
    (fun _ : List Char => false) (applyCredMap "kThf5Npwf1zJFn9l".toList).1 = false
    ∧ processFile (fun _ => false) "kThf5Npwf1zJFn9l".toList =
        "kThf5Npwf1zJFn9l".toList :=
  ⟨rfl, (c10_cred_replace_atomic (fun _ => false) [] [] "kThf5Npwf1zJFn9l".toList rfl).1⟩

/-! ## Toolkit for the termination of the relationships loop -/

theorem dropLit_some (p : List Char) : ∀ t r, dropLit p t = some r → t = p ++ r := by
  induction p with
  | nil =>
    intro t r h
    simp [dropLit] at h
    simp [h]
  | cons c ps ih =>
    intro t r h
    cases t with
    | nil => simp [dropLit] at h
    | cons d ts =>
      unfold dropLit at h
      split at h
      · rename_i hd
        have hd' : d = c := by simpa using hd
        subst hd'
        rw [List.cons_append, ← ih ts r h]
      · simp at h

theorem dropLit_self (p s : List Char) : dropLit p (p ++ s) = some s := by
  induction p with
  | nil => rfl
  | cons c ps ih => simpa [dropLit] using ih

theorem span_split (p : Char → Bool) (a : List Char) (c : Char) (y : List Char)
    (ha : ∀ x ∈ a, p x = true) (hc : p c = false) :
    (a ++ c :: y).takeWhile p = a ∧ (a ++ c :: y).dropWhile p = c :: y := by
  induction a with
  | nil => simp [List.takeWhile_cons, List.dropWhile_cons, hc]
  | cons x a ih =>
    have hx : p x = true := ha x (by simp)
    have := ih (fun z hz => ha z (by simp [hz]))
    simp [List.takeWhile_cons, List.dropWhile_cons, hx, this]

theorem firstSplit (p : Char → Bool) :
    ∀ (a₁ a₂ : List Char) (c₁ c₂ : Char) (r₁ r₂ : List Char),
      (∀ x ∈ a₁, p x = true) → (∀ x ∈ a₂, p x = true) →
      p c₁ = false → p c₂ = false →
      a₁ ++ c₁ :: r₁ = a₂ ++ c₂ :: r₂ → a₁ = a₂ ∧ c₁ = c₂ ∧ r₁ = r₂ := by
  intro a₁
  induction a₁ with
  | nil =>
    intro a₂ c₁ c₂ r₁ r₂ h1 h2 hc1 hc2 heq
    cases a₂ with
    | nil =>
      simp at heq
      exact ⟨rfl, heq.1, heq.2⟩
    | cons x a₂ =>
      simp at heq
      have hx : p x = true := h2 x (by simp)
      rw [heq.1] at hc1
      rw [hx] at hc1
      simp at hc1
  | cons x a₁ ih =>
    intro a₂ c₁ c₂ r₁ r₂ h1 h2 hc1 hc2 heq
    cases a₂ with
    | nil =>
      simp at heq
      have hx : p x = true := h1 x (by simp)
      rw [← heq.1] at hc2
      rw [hx] at hc2
      simp at hc2
    | cons z a₂ =>
      simp at heq
      obtain ⟨hxz, heq'⟩ := heq
      obtain ⟨e1, e2, e3⟩ := ih _ _ _ _ _ (fun w hw => h1 w (by simp [hw]))
        (fun w hw => h2 w (by simp [hw])) hc1 hc2 heq'
      exact ⟨by rw [hxz, e1], e2, e3⟩

theorem sfxSplit {t x y : List Char} (h : t <:+ x ++ y) :
    t <:+ y ∨ ∃ w, w <:+ x ∧ t = w ++ y := by
  obtain ⟨u, hu⟩ := h
  rcases List.append_eq_append_iff.mp hu with ⟨a', ha1, ha2⟩ | ⟨c', hc1, hc2⟩
  · right
    exact ⟨a', ⟨u, ha1.symm⟩, ha2⟩
  · left
    exact ⟨c', hc2.symm⟩

/-- The first nine characters of the marker tail block any `\s*\}` match: a
whitespace run followed by `\x7d` can never align with
`        Relationships: []`. -/
theorem wsbr (w X z : List Char) (hw : ∀ c ∈ w, sChar c = true) :
    w ++ '\x7d' :: X ≠ "        Relationships: []".toList ++ z := by
  intro heq
  have h9 : (w ++ '\x7d' :: X).take 9 = ("        Relationships: []".toList ++ z).take 9 := by
    rw [heq]
  by_cases hlen : w.length ≤ 8
  · have hb : '\x7d' ∈ (w ++ '\x7d' :: X).take 9 := by
      rw [List.take_append_eq_append_take]
      refine List.mem_append.mpr (Or.inr ?_)
      have : 1 ≤ 9 - w.length := by omega
      cases h9' : (9 - w.length) with
      | zero => omega
      | succ m => simp [List.take_cons]
    rw [h9] at hb
    rw [List.take_append_eq_append_take] at hb
    have h25 : ("        Relationships: []".toList).length = 25 := by decide
    have : ("        Relationships: []".toList).take 9 = "        R".toList := by decide
    rw [this] at hb
    have : (9 - ("        Relationships: []".toList).length) = 0 := by omega
    rw [this] at hb
    simp at hb
  · have hr : 'R' ∈ (w ++ '\x7d' :: X).take 9 := by
      rw [h9, List.take_append_eq_append_take]
      have : ("        Relationships: []".toList).take 9 = "        R".toList := by decide
      rw [this]
      have h25 : ("        Relationships: []".toList).length = 25 := by decide
      have : (9 - ("        Relationships: []".toList).length) = 0 := by omega
      rw [this]
      simp
    have hrw : 'R' ∈ w := by
      rw [List.take_append_eq_append_take] at hr
      have : 9 - w.length = 0 := by omega
      rw [this] at hr
      simp at hr
      exact List.mem_of_mem_take hr
    have := hw 'R' hrw
    revert this
    decide

theorem updAt_some {t a r : List Char} (h : updAt t = some (a, r)) :
    t = updOpen ++ a ++ '\x7d' :: r ∧ a ≠ [] ∧ ∀ c ∈ a, c ≠ '\x7d' := by
  unfold updAt at h
  split at h
  · simp at h
  · rename_i t1 hdl
    have ht : t = updOpen ++ t1 := dropLit_some updOpen t t1 hdl
    split at h
    · rename_i c2 t2 hdw
      simp at h
      obtain ⟨hne0, ha, hr⟩ := h
      have hsplit := List.takeWhile_append_dropWhile (fun c => c != '\x7d') t1
      have hc2 : (c2 != '\x7d') = false := by
        have := List.head?_dropWhile_not (fun c => c != '\x7d') t1
        rw [hdw] at this
        simpa using this
      have hc2' : c2 = '\x7d' := by simpa using hc2
      have hanil : a ≠ [] := by
        obtain ⟨hpos, hhd⟩ := hne0
        rw [← ha]
        cases t1 with
        | nil => simp at hpos
        | cons c0 t1' =>
          simp at hhd
          simp [List.takeWhile_cons, hhd]
      refine ⟨?_, hanil, ?_⟩
      · rw [ht, ← hsplit, hdw, ha, hr, hc2']
        simp
      · intro c hc
        rw [← ha] at hc
        have := List.mem_takeWhile_imp hc
        simpa using this
    · simp at h

theorem updAt_append (a r : List Char) (hne : a ≠ []) (hb : ∀ c ∈ a, c ≠ '\x7d') :
    updAt (updOpen ++ a ++ '\x7d' :: r) = some (a, r) := by
  unfold updAt
  rw [List.append_assoc, dropLit_self]
  have hsp := span_split (fun c => c != '\x7d') a '\x7d' r
    (fun x hx => by simpa using hb x hx) (by decide)
  dsimp only
  rw [hsp.1, hsp.2]
  simp [hne]

theorem relMText_split (g : RelG) : relMText g = relHead g ++ relTail g := by
  simp [relMText, relHead, relTail, List.append_assoc]

theorem relRep_split (g : RelG) : relRep g = relHead g ++ (relMarker ++ relTail g) := by
  simp [relRep, relHead, relTail, List.append_assoc]

theorem relHead_len {g : RelG} (h : g.a ≠ []) : 10 < (relHead g).length := by
  have h9 : updOpen.length = 9 := by decide
  have h1 : 0 < g.a.length := List.length_pos.mpr h
  simp [relHead, h9]
  omega

theorem expectChar_some {c : Char} {l r : List Char} (h : expectChar c l = some r) :
    l = c :: r := by
  cases l with
  | nil => simp [expectChar] at h
  | cons x l' =>
    simp only [expectChar] at h
    split at h
    · rename_i hx
      simp at h hx
      rw [hx, h]
    · simp at h

theorem matchRel_some {t : List Char} {g : RelG} {rest : List Char}
    (h : matchRel t = some (g, rest)) : t = relMText g ++ rest ∧ RelGood g := by
  unfold matchRel at h
  simp only [Option.bind_eq_some] at h
  obtain ⟨ar, hupd, r1, hnl1, r2, hbr, r3, hnl2, h⟩ := h
  obtain ⟨a, r⟩ := ar
  split at h
  · simp at h
  · rename_i hg4e
    rw [Option.bind_eq_some] at h
    obtain ⟨r5, hcl, h⟩ := h
    simp only [Option.some_inj, Prod.mk.injEq] at h
    obtain ⟨hg, hrest⟩ := h
    subst hg
    subst hrest
    obtain ⟨ht, hane, hab⟩ := updAt_some hupd
    have h2 : r = '\n' :: r1 := expectChar_some hnl1
    have h3 := expectChar_some hbr
    have h4 := expectChar_some hnl2
    have h5 := expectChar_some hcl
    have hw2 := List.takeWhile_append_dropWhile sChar r1
    have hw3 := List.takeWhile_append_dropWhile sChar r3
    have hg4w := List.takeWhile_append_dropWhile wChar (r3.dropWhile sChar)
    constructor
    · have e1 : r1 = r1.takeWhile sChar ++ r1.dropWhile sChar := hw2.symm
      rw [h3, h4] at e1
      have e2 : r3 = r3.takeWhile sChar ++ r3.dropWhile sChar := hw3.symm
      have e3 : r3.dropWhile sChar =
          (r3.dropWhile sChar).takeWhile wChar ++ (r3.dropWhile sChar).dropWhile wChar :=
        hg4w.symm
      rw [h5] at e3
      rw [e3] at e2
      rw [e2] at e1
      rw [ht, h2]
      conv_lhs => rw [e1]
      simp [relMText, List.append_assoc]
    · refine ⟨hane, hab, ?_, ?_, ?_, ?_⟩
      · intro c hc
        exact List.mem_takeWhile_imp hc
      · intro c hc
        exact List.mem_takeWhile_imp hc
      · simpa using hg4e
      · intro c hc
        exact List.mem_takeWhile_imp hc

theorem relStep_some {t r rest : List Char} (h : relStep t = some (r, rest)) :
    ∃ g, matchRel t = some (g, rest) ∧ r = relRep g := by
  unfold relStep at h
  split at h
  · rename_i g rest' hm
    simp at h
    exact ⟨g, by rw [hm, h.2], h.1.symm⟩
  · simp at h

theorem relStep_none {t : List Char} (h : matchRel t = none) : relStep t = none := by
  unfold relStep
  rw [h]

theorem brace_mem_relMText (g : RelG) : '\x7d' ∈ relMText g := by
  simp [relMText]

theorem take_append_eq_of_le {P X Y : List Char} {k : Nat} (h : k ≤ P.length) :
    (P ++ X).take k = (P ++ Y).take k := by
  rw [List.take_append_eq_append_take, List.take_append_eq_append_take,
      Nat.sub_eq_zero_of_le h]
  simp

theorem subScanF_take : ∀ (fuel k : Nat), k ≤ 10 → ∀ t : List Char,
    (subScanF relStep fuel t).take k = t.take k := by
  intro fuel
  induction fuel with
  | zero => intro k hk t; rfl
  | succ n ih =>
    intro k hk t
    cases t with
    | nil => rfl
    | cons c cs =>
      simp only [subScanF]
      cases hstep : relStep (c :: cs) with
      | some p =>
        obtain ⟨r0, rest⟩ := p
        dsimp only
        obtain ⟨g, hm, hr⟩ := relStep_some hstep
        obtain ⟨hmt, hgood⟩ := matchRel_some hm
        rw [hmt, hr, relRep_split, relMText_split]
        simp only [List.append_assoc]
        have hlen := relHead_len hgood.1
        refine take_append_eq_of_le ?_
        omega
      | none =>
        dsimp only
        cases k with
        | zero => simp
        | succ k' =>
          simp only [List.take_succ_cons]
          rw [ih k' (by omega) cs]

theorem subScanF_nobrace : ∀ (fuel : Nat) (t : List Char),
    (∀ c ∈ t, c ≠ '\x7d') → subScanF relStep fuel t = t := by
  intro fuel
  induction fuel with
  | zero => intro t h; rfl
  | succ n ih =>
    intro t h
    cases t with
    | nil => rfl
    | cons c cs =>
      simp only [subScanF]
      cases hstep : relStep (c :: cs) with
      | some p =>
        obtain ⟨r0, rest⟩ := p
        obtain ⟨g, hm, hr⟩ := relStep_some hstep
        obtain ⟨hmt, hgood⟩ := matchRel_some hm
        have : '\x7d' ∈ c :: cs := by
          rw [hmt]
          exact List.mem_append.mpr (Or.inl (brace_mem_relMText g))
        exact absurd rfl (h '\x7d' this)
      | none =>
        dsimp only
        rw [ih cs (fun x hx => h x (by simp [hx]))]

theorem subScanF_local (step : List Char → Option (List Char × List Char)) :
    ∀ (x z : List Char) (fuel : Nat), x.length + z.length ≤ fuel →
    (∀ t, t ≠ [] → t <:+ x → step (t ++ z) = none) →
    subScanF step fuel (x ++ z) = x ++ subScanF step (fuel - x.length) z := by
  intro x
  induction x with
  | nil =>
    intro z fuel h hn
    simp
  | cons c x' ih =>
    intro z fuel h hn
    cases fuel with
    | zero => simp at h
    | succ n =>
      have h0 : step (c :: (x' ++ z)) = none := by
        rw [← List.cons_append]
        exact hn (c :: x') (by simp) List.suffix_rfl
      have hlen : x'.length + z.length ≤ n := by simp at h; omega
      rw [List.cons_append]
      simp only [subScanF]
      rw [h0]
      dsimp only
      rw [ih z n hlen (fun t ht hs => hn t ht (hs.trans (List.suffix_cons c x')))]
      have heq2 : n + 1 - (c :: x').length = n - x'.length := by simp
      rw [heq2, List.cons_append]

theorem updOpen_nb : ∀ c ∈ updOpen, c ≠ '\x7d' := by decide

theorem relMarker_nU : ∀ c ∈ relMarker, c ≠ 'U' := by decide

theorem updAt_head_none {c : Char} (h : c ≠ 'U') (y : List Char) :
    updAt (c :: y) = none := by
  have hop : updOpen = 'U' :: "pdate: \x7b".toList := by decide
  unfold updAt
  rw [hop]
  unfold dropLit
  have : (c == 'U') = false := by simpa using h
  rw [this]
  simp

theorem matchRel_none_of_head {c : Char} (h : c ≠ 'U') (y : List Char) :
    matchRel (c :: y) = none := by
  unfold matchRel
  rw [updAt_head_none h]
  rfl

theorem updAt_brace_first (Y : List Char) : updAt (updOpen ++ '\x7d' :: Y) = none := by
  unfold updAt
  rw [dropLit_self]
  dsimp only
  rw [List.takeWhile_cons]
  simp

theorem updAt_none_cases {y : List Char} (h : updAt y = none) :
    (¬ updOpen <+: y) ∨ (∃ w, y = updOpen ++ '\x7d' :: w) ∨
      (∃ t1, y = updOpen ++ t1 ∧ ∀ c ∈ t1, c ≠ '\x7d') := by
  unfold updAt at h
  split at h
  · rename_i hdl
    left
    intro hpfx
    obtain ⟨s, rfl⟩ := hpfx
    rw [dropLit_self] at hdl
    simp at hdl
  · rename_i t1 hdl
    have ht : y = updOpen ++ t1 := dropLit_some updOpen y t1 hdl
    split at h
    · rename_i c2 t2 hdw
      dsimp only at h
      split at h
      · rename_i hemp
        simp at hemp
        cases t1 with
        | nil =>
          right; right
          exact ⟨[], ht, by simp⟩
        | cons c1 t2' =>
          have hc1 := hemp (by simp)
          simp at hc1
          right; left
          exact ⟨t2', by rw [ht, hc1]⟩
      · simp at h
    · rename_i hdw
      right; right
      refine ⟨t1, ht, ?_⟩
      intro c hc
      have := List.dropWhile_eq_nil_iff.mp hdw c hc
      simpa using this

theorem liveAt_false_marker {p X : List Char} (hp : ∀ c ∈ p, c ≠ '\x7d') :
    liveAt (p ++ '\x7d' :: (relMarker ++ X)) = false := by
  unfold liveAt
  cases hu : updAt (p ++ '\x7d' :: (relMarker ++ X)) with
  | none => rfl
  | some ar =>
    obtain ⟨a, r⟩ := ar
    obtain ⟨ht, hane, hab⟩ := updAt_some hu
    have heq : p ++ '\x7d' :: (relMarker ++ X) = (updOpen ++ a) ++ '\x7d' :: r := by
      rw [ht]
    have hsp := firstSplit (fun c => c != '\x7d') p (updOpen ++ a) '\x7d' '\x7d'
      (relMarker ++ X) r
      (fun x hx => by simpa using hp x hx)
      (fun x hx => by
        rcases List.mem_append.mp hx with h1 | h1
        · simpa using updOpen_nb x h1
        · simpa using hab x h1)
      (by decide) (by decide) heq
    obtain ⟨hpe, -, hre⟩ := hsp
    have : relMarker.isPrefixOf r = true := by
      rw [List.isPrefixOf_iff_prefix]
      exact ⟨X, hre⟩
    dsimp only
    rw [this]
    rfl

theorem relMText_brace (g : RelG) (rest : List Char) :
    relMText g ++ rest = (updOpen ++ g.a) ++ '\x7d' :: (relTail g ++ rest) := by
  simp [relMText, relTail, List.append_assoc]

/-- No full `relationships_pattern` match can start inside a replaced block:
the block consists of `Update: \{A\}` followed by the inserted marker, and the
marker's spaces-then-`R` shape blocks every alignment. -/
theorem noMatch_in_wm {a : List Char} (hab : ∀ c ∈ a, c ≠ '\x7d')
    {t1 : List Char} (hne : t1 ≠ [])
    (hsfx : t1 <:+ (updOpen ++ a ++ ['\x7d']) ++ relMarker) (z : List Char) :
    matchRel (t1 ++ z) = none := by
  rcases sfxSplit hsfx with hm | ⟨w, hw, rfl⟩
  · cases t1 with
    | nil => exact absurd rfl hne
    | cons c t2 =>
      have hc : c ∈ relMarker := hm.subset (by simp)
      exact matchRel_none_of_head (relMarker_nU c hc) _
  · cases w with
    | nil =>
      simp only [List.nil_append]
      have : relMarker = '\n' :: "        Relationships: []".toList := by decide
      rw [this]
      exact matchRel_none_of_head (by decide) _
    | cons c0 w0 =>
      rcases sfxSplit hw with h1 | ⟨w', hw', hweq⟩
      · obtain ⟨u, hu⟩ := h1
        cases u with
        | nil =>
          simp at hu
          rw [hu.1, hu.2]
          have hmm : ('\x7d' :: relMarker) ++ z = '\x7d' :: (relMarker ++ z) := by simp
          rw [List.cons_append, List.cons_append]
          exact matchRel_none_of_head (by decide) _
        | cons u0 u1 =>
          simp at hu
      · have hw'b : ∀ c ∈ w', c ≠ '\x7d' := by
          intro c hc
          have hcm : c ∈ updOpen ++ a := hw'.subset hc
          rcases List.mem_append.mp hcm with h2 | h2
          · exact updOpen_nb c h2
          · exact hab c h2
        rw [hweq]
        cases hmr : matchRel ((w' ++ ['\x7d']) ++ relMarker ++ z) with
        | none => rfl
        | some gr =>
          exfalso
          obtain ⟨g, rest⟩ := gr
          obtain ⟨hmt, hgood⟩ := matchRel_some hmr
          rw [relMText_brace] at hmt
          have heq : w' ++ '\x7d' :: (relMarker ++ z) =
              (updOpen ++ g.a) ++ '\x7d' :: (relTail g ++ rest) := by
            rw [← hmt]
            simp [List.append_assoc]
          have hsp := firstSplit (fun c => c != '\x7d') w' (updOpen ++ g.a) '\x7d' '\x7d'
            (relMarker ++ z) (relTail g ++ rest)
            (fun x hx => by simpa using hw'b x hx)
            (fun x hx => by
              rcases List.mem_append.mp hx with h2 | h2
              · simpa using updOpen_nb x h2
              · simpa using hgood.2.1 x h2)
            (by decide) (by decide) heq
          obtain ⟨-, -, hre⟩ := hsp
          have hmt2 : relMarker = '\n' :: "        Relationships: []".toList := by decide
          have hrt : relTail g ++ rest =
              '\n' :: (g.w2 ++ '\x7d' :: ('\n' :: (g.w3 ++ (g.g4 ++ ':' :: rest)))) := by
            simp [relTail, List.append_assoc]
          rw [hmt2, hrt, List.cons_append] at hre
          simp only [List.cons.injEq, true_and] at hre
          exact wsbr g.w2 _ z hgood.2.2.1 hre.symm

theorem liveAt_none {t : List Char} (hu : updAt t = none) : liveAt t = false := by
  unfold liveAt
  rw [hu]

theorem liveAt_live {t a r : List Char} (hu : updAt t = some (a, r))
    (hm : relMarker.isPrefixOf r = false) : liveAt t = true := by
  unfold liveAt
  rw [hu]
  dsimp only
  rw [hm]
  rfl

theorem take_u_sub (u t : List Char) (fuel k : Nat) (hk : k ≤ 10) :
    (u ++ subScanF relStep fuel t).take k = (u ++ t).take k := by
  rw [List.take_append_eq_append_take, List.take_append_eq_append_take,
      subScanF_take fuel (k - u.length) (by omega) t]

theorem updAt_none_mono (u t : List Char) (fuel : Nat)
    (hA : updAt (u ++ t) = none) : updAt (u ++ subScanF relStep fuel t) = none := by
  have hlen9 : updOpen.length = 9 := by decide
  rcases updAt_none_cases hA with h1 | ⟨w, hw⟩ | ⟨t1, ht1, hnb⟩
  · cases hB : updAt (u ++ subScanF relStep fuel t) with
    | none => rfl
    | some ar =>
      exfalso
      obtain ⟨a, r⟩ := ar
      obtain ⟨ht, -, -⟩ := updAt_some hB
      apply h1
      have hpfx : updOpen <+: u ++ subScanF relStep fuel t :=
        ⟨a ++ '\x7d' :: r, by rw [ht]; simp [List.append_assoc]⟩
      rw [List.prefix_iff_eq_take, hlen9] at hpfx
      rw [List.prefix_iff_eq_take, hlen9]
      rw [← take_u_sub u t fuel 9 (by omega)]
      exact hpfx
  · have h10 : (u ++ t).take 10 = updOpen ++ ['\x7d'] := by
      rw [hw, show updOpen ++ '\x7d' :: w = (updOpen ++ ['\x7d']) ++ w by simp]
      exact List.take_left' (by decide)
    have h10' : (u ++ subScanF relStep fuel t).take 10 = updOpen ++ ['\x7d'] := by
      rw [take_u_sub u t fuel 10 (by omega)]
      exact h10
    have hdecomp : u ++ subScanF relStep fuel t =
        updOpen ++ '\x7d' :: (u ++ subScanF relStep fuel t).drop 10 := by
      conv_lhs => rw [← List.take_append_drop 10 (u ++ subScanF relStep fuel t)]
      rw [h10']
      simp
    rw [hdecomp]
    exact updAt_brace_first _
  · have hnb2 : ∀ c ∈ t, c ≠ '\x7d' := by
      intro c hc
      have hc2 : c ∈ updOpen ++ t1 := by
        rw [← ht1]
        exact List.mem_append.mpr (Or.inr hc)
      rcases List.mem_append.mp hc2 with h2 | h2
      · exact updOpen_nb c h2
      · exact hnb c h2
    rw [subScanF_nobrace fuel t hnb2]
    exact hA

/-- The one-sided monotonicity at a single site: a live site of the output of
a relationships pass was already live in the input. -/
theorem liveAt_mono (u t : List Char) (fuel : Nat) (hf : t.length ≤ fuel)
    (hl : liveAt (u ++ subScanF relStep fuel t) = true) : liveAt (u ++ t) = true := by
  cases hA : updAt (u ++ t) with
  | none =>
    have h2 := liveAt_none (updAt_none_mono u t fuel hA)
    rw [h2] at hl
    exact absurd hl (by decide)
  | some ar =>
    obtain ⟨a, r⟩ := ar
    cases hm : relMarker.isPrefixOf r with
    | false => exact liveAt_live hA hm
    | true =>
      exfalso
      have hm' : relMarker <+: r := List.isPrefixOf_iff_prefix.mp hm
      obtain ⟨z, hz⟩ := hm'
      obtain ⟨ht, hane, hab⟩ := updAt_some hA
      have hform : u ++ t = ((updOpen ++ a ++ ['\x7d']) ++ relMarker) ++ z := by
        rw [ht, ← hz]
        simp [List.append_assoc]
      have hnbrace : ∀ c ∈ updOpen ++ a, c ≠ '\x7d' := by
        intro c hc
        rcases List.mem_append.mp hc with h2 | h2
        · exact updOpen_nb c h2
        · exact hab c h2
      rcases List.append_eq_append_iff.mp hform with ⟨w, hw1, hw2⟩ | ⟨w, hw1, hw2⟩
      · have hwsfx : w <:+ (updOpen ++ a ++ ['\x7d']) ++ relMarker := ⟨u, hw1.symm⟩
        have hnm : ∀ t1, t1 ≠ [] → t1 <:+ w → relStep (t1 ++ z) = none := by
          intro t1 ht1 hs
          exact relStep_none (noMatch_in_wm hab ht1 (hs.trans hwsfx) z)
        have hfz : w.length + z.length ≤ fuel := by
          rw [hw2] at hf
          simpa using hf
        have hloc := subScanF_local relStep w z fuel hfz hnm
        rw [hw2, hloc] at hl
        have he : u ++ (w ++ subScanF relStep (fuel - w.length) z) =
            (updOpen ++ a) ++ '\x7d' ::
              (relMarker ++ subScanF relStep (fuel - w.length) z) := by
          rw [← List.append_assoc, ← hw1]
          simp [List.append_assoc]
        rw [he] at hl
        rw [@liveAt_false_marker (updOpen ++ a) (subScanF relStep (fuel - w.length) z)
          hnbrace] at hl
        exact absurd hl (by decide)
      · rw [hw1] at hl
        have he : (((updOpen ++ a ++ ['\x7d']) ++ relMarker) ++ w) ++
              subScanF relStep fuel t =
            (updOpen ++ a) ++ '\x7d' :: (relMarker ++ (w ++ subScanF relStep fuel t)) := by
          simp [List.append_assoc]
        rw [he] at hl
        rw [@liveAt_false_marker (updOpen ++ a) (w ++ subScanF relStep fuel t)
          hnbrace] at hl
        exact absurd hl (by decide)

theorem relPhi_cons (c : Char) (l : List Char) :
    relPhi (c :: l) = (if liveAt (c :: l) then 1 else 0) + relPhi l := by
  unfold relPhi
  rw [List.tails_cons, List.countP_cons]
  omega

theorem relPhi_append (a b : List Char) :
    relPhi (a ++ b) = crossPhi a b + relPhi b := by
  induction a with
  | nil => simp [crossPhi]
  | cons c a ih =>
    rw [List.cons_append, relPhi_cons, ih]
    simp only [crossPhi]
    omega

theorem crossPhi_append (a b c : List Char) :
    crossPhi (a ++ b) c = crossPhi a (b ++ c) + crossPhi b c := by
  induction a with
  | nil => simp [crossPhi]
  | cons x a ih =>
    simp only [List.cons_append, crossPhi, List.append_eq]
    rw [ih]
    simp only [List.append_assoc]
    omega

theorem crossPhi_zero (P Y : List Char)
    (h : ∀ g, g ≠ [] → g <:+ P → liveAt (g ++ Y) = false) : crossPhi P Y = 0 := by
  induction P with
  | nil => rfl
  | cons c P' ih =>
    simp only [crossPhi]
    have h0 : liveAt ((c :: P') ++ Y) = false := h (c :: P') (by simp) List.suffix_rfl
    rw [List.cons_append] at h0
    rw [h0]
    simp
    exact ih (fun g hg hs => h g hg (hs.trans (List.suffix_cons c P')))

theorem crossPhi_mono (a t : List Char) (fuel : Nat) (hf : t.length ≤ fuel) :
    crossPhi a (subScanF relStep fuel t) ≤ crossPhi a t := by
  induction a with
  | nil => simp [crossPhi]
  | cons c a' ih =>
    simp only [crossPhi]
    have h1 : (if liveAt (c :: (a' ++ subScanF relStep fuel t)) then 1 else 0) ≤
        (if liveAt (c :: (a' ++ t)) then 1 else 0) := by
      by_cases hb : liveAt (c :: (a' ++ subScanF relStep fuel t)) = true
      · have := liveAt_mono (c :: a') t fuel hf (by rw [List.cons_append]; exact hb)
        rw [List.cons_append] at this
        rw [hb, this]
      · rw [Bool.not_eq_true] at hb
        rw [hb]
        simp
    omega

theorem crossPhi_pos (P Y : List Char) (hne : P ≠ []) (hl : liveAt (P ++ Y) = true) :
    1 ≤ crossPhi P Y := by
  cases P with
  | nil => exact absurd rfl hne
  | cons c P' =>
    simp only [crossPhi]
    rw [List.cons_append] at hl
    rw [hl]
    have h1 : (if (true : Bool) = true then 1 else 0) = 1 := by simp
    rw [h1]
    omega

theorem relMarker_not_pfx_relTail (g : RelG) (hgood : RelGood g) (rest : List Char) :
    relMarker.isPrefixOf (relTail g ++ rest) = false := by
  cases hb : relMarker.isPrefixOf (relTail g ++ rest) with
  | false => rfl
  | true =>
    exfalso
    obtain ⟨z', hz'⟩ := List.isPrefixOf_iff_prefix.mp hb
    have hmt2 : relMarker = '\n' :: "        Relationships: []".toList := by decide
    have hrt : relTail g ++ rest =
        '\n' :: (g.w2 ++ '\x7d' :: ('\n' :: (g.w3 ++ (g.g4 ++ ':' :: rest)))) := by
      simp [relTail, List.append_assoc]
    rw [hmt2, hrt, List.cons_append] at hz'
    simp only [List.cons.injEq, true_and] at hz'
    exact wsbr g.w2 _ z' hgood.2.2.1 hz'.symm

theorem updAt_mtext (g : RelG) (hgood : RelGood g) (rest : List Char) :
    updAt (relMText g ++ rest) = some (g.a, relTail g ++ rest) := by
  have he : relMText g ++ rest = updOpen ++ g.a ++ '\x7d' :: (relTail g ++ rest) := by
    simp [relMText, relTail, List.append_assoc]
  rw [he]
  exact updAt_append _ _ hgood.1 hgood.2.1

theorem liveAt_mtext (g : RelG) (hgood : RelGood g) (rest : List Char) :
    liveAt (relMText g ++ rest) = true :=
  liveAt_live (updAt_mtext g hgood rest) (relMarker_not_pfx_relTail g hgood rest)

theorem crossPhi_relHead (g : RelG) (hgood : RelGood g) (Y : List Char) :
    crossPhi (relHead g) (relMarker ++ Y) = 0 := by
  apply crossPhi_zero
  intro gs hne hs
  rcases sfxSplit (hs : gs <:+ (updOpen ++ g.a) ++ ['\x7d']) with h1 | ⟨w', hw', rfl⟩
  · obtain ⟨u, hu⟩ := h1
    cases gs with
    | nil => exact absurd rfl hne
    | cons c0 g0 =>
      cases u with
      | nil =>
        simp at hu
        rw [hu.1, hu.2]
        exact liveAt_none (updAt_head_none (by decide) _)
      | cons u0 u1 => simp at hu
  · have hw'b : ∀ c ∈ w', c ≠ '\x7d' := by
      intro c hc
      have hcm : c ∈ updOpen ++ g.a := hw'.subset hc
      rcases List.mem_append.mp hcm with h2 | h2
      · exact updOpen_nb c h2
      · exact hgood.2.1 c h2
    have he : (w' ++ ['\x7d']) ++ (relMarker ++ Y) = w' ++ '\x7d' :: (relMarker ++ Y) := by
      simp
    rw [he]
    exact liveAt_false_marker hw'b

theorem crossPhi_marker (Y : List Char) : crossPhi relMarker Y = 0 := by
  apply crossPhi_zero
  intro gs hne hs
  cases gs with
  | nil => exact absurd rfl hne
  | cons c0 g0 =>
    have hc : c0 ∈ relMarker := hs.subset (by simp)
    rw [List.cons_append]
    exact liveAt_none (updAt_head_none (relMarker_nU c0 hc) _)

theorem relPhi_sub_le : ∀ (fuel : Nat) (t : List Char), t.length ≤ fuel →
    relPhi (subScanF relStep fuel t) ≤ relPhi t := by
  intro fuel
  induction fuel with
  | zero => intro t _; exact le_rfl
  | succ n ih =>
    intro t hf
    cases t with
    | nil => exact le_rfl
    | cons c cs =>
      simp only [subScanF]
      cases hstep : relStep (c :: cs) with
      | some p =>
        obtain ⟨r0, rest⟩ := p
        dsimp only
        obtain ⟨g, hm, hr⟩ := relStep_some hstep
        obtain ⟨hmt, hgood⟩ := matchRel_some hm
        have hlenH := relHead_len hgood.1
        have hmtlen : (relMText g).length = (relHead g).length + (relTail g).length := by
          rw [relMText_split]
          simp
        have hcs : (c :: cs).length = (relMText g).length + rest.length := by
          rw [hmt]
          simp
        have hrest : rest.length ≤ n := by
          simp at hcs hf
          omega
        rw [hr, relRep_split, hmt, relMText_split]
        simp only [List.append_assoc]
        rw [relPhi_append, relPhi_append, relPhi_append, relPhi_append, relPhi_append]
        rw [crossPhi_relHead g hgood _, crossPhi_marker]
        have h1 := crossPhi_mono (relTail g) rest n hrest
        have h2 := ih rest hrest
        omega
      | none =>
        dsimp only
        rw [relPhi_cons, relPhi_cons]
        have hcs : cs.length ≤ n := by simp at hf; omega
        have h2 := ih cs hcs
        have h1 : (if liveAt (c :: subScanF relStep n cs) then 1 else 0) ≤
            (if liveAt (c :: cs) then 1 else 0) := by
          by_cases hb : liveAt (c :: subScanF relStep n cs) = true
          · have hin := liveAt_mono [c] cs n hcs (by simpa using hb)
            simp at hin
            rw [hb, hin]
          · rw [Bool.not_eq_true] at hb
            rw [hb]
            simp
        omega

theorem relPhi_sub_lt : ∀ (fuel : Nat) (t : List Char), t.length ≤ fuel →
    subScanF relStep fuel t ≠ t →
    relPhi (subScanF relStep fuel t) < relPhi t := by
  intro fuel
  induction fuel with
  | zero => intro t _ hne; exact absurd rfl hne
  | succ n ih =>
    intro t hf hne
    cases t with
    | nil => exact absurd rfl hne
    | cons c cs =>
      cases hstep : relStep (c :: cs) with
      | some p =>
        obtain ⟨r0, rest⟩ := p
        have hcomp : subScanF relStep (n + 1) (c :: cs) = r0 ++ subScanF relStep n rest := by
          simp only [subScanF]
          rw [hstep]
        rw [hcomp]
        obtain ⟨g, hm, hr⟩ := relStep_some hstep
        obtain ⟨hmt, hgood⟩ := matchRel_some hm
        have hlenH := relHead_len hgood.1
        have hmtlen : (relMText g).length = (relHead g).length + (relTail g).length := by
          rw [relMText_split]
          simp
        have hcs : (c :: cs).length = (relMText g).length + rest.length := by
          rw [hmt]
          simp
        have hrest : rest.length ≤ n := by
          simp at hcs hf
          omega
        rw [hr, relRep_split, hmt, relMText_split]
        simp only [List.append_assoc]
        rw [relPhi_append, relPhi_append, relPhi_append, relPhi_append, relPhi_append]
        rw [crossPhi_relHead g hgood _, crossPhi_marker]
        have h1 := crossPhi_mono (relTail g) rest n hrest
        have h2 := relPhi_sub_le n rest hrest
        have h3 : 1 ≤ crossPhi (relHead g) (relTail g ++ rest) := by
          refine crossPhi_pos _ _ (List.length_pos.mp (by omega)) ?_
          have hl := liveAt_mtext g hgood rest
          rw [relMText_split, List.append_assoc] at hl
          exact hl
        omega
      | none =>
        have hcomp : subScanF relStep (n + 1) (c :: cs) = c :: subScanF relStep n cs := by
          simp only [subScanF]
          rw [hstep]
        rw [hcomp]
        rw [hcomp] at hne
        have hsub : subScanF relStep n cs ≠ cs := by
          intro hh
          exact hne (by rw [hh])
        have hcs : cs.length ≤ n := by simp at hf; omega
        rw [relPhi_cons, relPhi_cons]
        have h2 := ih cs hcs hsub
        have h1 : (if liveAt (c :: subScanF relStep n cs) then 1 else 0) ≤
            (if liveAt (c :: cs) then 1 else 0) := by
          by_cases hb : liveAt (c :: subScanF relStep n cs) = true
          · have hin := liveAt_mono [c] cs n hcs (by simpa using hb)
            simp at hin
            rw [hb, hin]
          · rw [Bool.not_eq_true] at hb
            rw [hb]
            simp
        omega

theorem relLoop_reaches : ∀ (k : Nat) (s : List Char), relPhi s ≤ k →
    relSub (relLoopF (k + 1) s) = relLoopF (k + 1) s := by
  intro k
  induction k with
  | zero =>
    intro s h0
    by_cases hc : relSub s = s
    · simp only [relLoopF]
      rw [if_pos (by simp [hc])]
      exact hc
    · exfalso
      have hc' : subScanF relStep s.length s ≠ s := hc
      have := relPhi_sub_lt s.length s le_rfl hc'
      omega
  | succ k ih =>
    intro s h
    by_cases hc : relSub s = s
    · simp only [relLoopF]
      rw [if_pos (by simp [hc])]
      exact hc
    · have hc' : subScanF relStep s.length s ≠ s := hc
      have hlt : relPhi (subScanF relStep s.length s) < relPhi s :=
        relPhi_sub_lt s.length s le_rfl hc'
      have hstep : relLoopF (k + 1 + 1) s = relLoopF (k + 1) (relSub s) := by
        rw [show relLoopF (k + 1 + 1) s =
            (if relSub s == s then s else relLoopF (k + 1) (relSub s)) from rfl]
        rw [if_neg (by simp [hc])]
      rw [hstep]
      exact ih (relSub s) (show relPhi (subScanF relStep s.length s) ≤ k by omega)

/-- C6: the relationships fixed-point loop terminates on every input: after
at most `relPhi s + 1` substitution passes (finitely many) it reaches a fixed
point at which the substitution makes no further insertion.  Each changing
pass strictly decreases the number of live `Update` sites (`relPhi`), because
a replaced site becomes permanently followed by the marker, sites inside a
replaced block or the marker are dead, and a pass never turns a dead or
unmatched position into a live one. -/
theorem c6_rel_loop_terminates (s : List Char) :
    relSub (relFix s) = relFix s ∧ relFix s = relLoopF (relPhi s + 1) s :=
  ⟨relLoop_reaches (relPhi s) s le_rfl, rfl⟩

/-! ## Toolkit for the idempotence of the whole transform -/

theorem sChar_ne_U {c : Char} (h : sChar c = true) : c ≠ 'U' := by
  intro hc
  subst hc
  exact absurd h (by decide)

theorem sChar_ne_brace {c : Char} (h : sChar c = true) : c ≠ '\x7d' := by
  intro hc
  subst hc
  exact absurd h (by decide)

theorem wChar_ne_brace {c : Char} (h : wChar c = true) : c ≠ '\x7d' := by
  intro hc
  subst hc
  exact absurd h (by decide)

theorem sChar_cases {c : Char} (h : sChar c = true) :
    c = ' ' ∨ c = '\t' ∨ c = '\n' ∨ c = '\r' ∨ c = '\x0b' ∨ c = '\x0c' := by
  simp [sChar] at h
  tauto

theorem wChar_sChar_false {c : Char} (h : wChar c = true) : sChar c = false := by
  cases hs : sChar c with
  | false => rfl
  | true =>
    exfalso
    rcases sChar_cases hs with h1 | h1 | h1 | h1 | h1 | h1 <;>
      (subst h1; exact absurd h (by decide))

theorem expectChar_cons_self (c : Char) (l : List Char) :
    expectChar c (c :: l) = some l := by
  simp [expectChar]

/-- Locating an explicit `\x7d` inside a list whose first brace closes the
span `A`: the located brace is the first one, or it lies in the remainder. -/
theorem braceChop : ∀ (A X R Q : List Char), (∀ c ∈ A, c ≠ '\x7d') →
    A ++ '\x7d' :: R = X ++ '\x7d' :: Q →
    (X = A ∧ Q = R) ∨ ∃ Y, X = A ++ '\x7d' :: Y ∧ R = Y ++ '\x7d' :: Q := by
  intro A
  induction A with
  | nil =>
    intro X R Q hA heq
    cases X with
    | nil =>
      simp at heq
      exact Or.inl ⟨rfl, heq.symm⟩
    | cons x X' =>
      rw [List.nil_append, List.cons_append] at heq
      injection heq with h1 h2
      exact Or.inr ⟨X', by rw [List.nil_append, ← h1], h2⟩
  | cons a A' ih =>
    intro X R Q hA heq
    cases X with
    | nil =>
      rw [List.cons_append, List.nil_append] at heq
      injection heq with h1 h2
      exact absurd h1 (hA a (by simp))
    | cons x X' =>
      rw [List.cons_append, List.cons_append] at heq
      injection heq with h1 h2
      rcases ih X' R Q (fun c hc => hA c (by simp [hc])) h2 with ⟨e1, e2⟩ | ⟨Y, e1, e2⟩
      · exact Or.inl ⟨by rw [← h1, e1], e2⟩
      · exact Or.inr ⟨Y, by rw [← h1, e1, List.cons_append], e2⟩

/-- Locating an explicit `\x7d` beyond a brace-free span `A`: the brace and
everything around it lie in the remainder. -/
theorem braceShift : ∀ (A Y r Q : List Char), (∀ c ∈ A, c ≠ '\x7d') →
    A ++ r = Y ++ '\x7d' :: Q → ∃ w, Y = A ++ w ∧ r = w ++ '\x7d' :: Q := by
  intro A
  induction A with
  | nil =>
    intro Y r Q hA heq
    rw [List.nil_append] at heq
    exact ⟨Y, by simp, heq⟩
  | cons a A' ih =>
    intro Y r Q hA heq
    cases Y with
    | nil =>
      rw [List.cons_append, List.nil_append] at heq
      injection heq with h1 h2
      exact absurd h1 (hA a (by simp))
    | cons y Y' =>
      rw [List.cons_append, List.cons_append] at heq
      injection heq with h1 h2
      rcases ih Y' r Q (fun c hc => hA c (by simp [hc])) h2 with ⟨w, e1, e2⟩
      exact ⟨w, by rw [h1, e1, List.cons_append], e2⟩

/-- Generalisation of `wsbr` to any non-whitespace blocker other than `R`:
a whitespace run followed by such a character can never align with
`        Relationships: []`. -/
theorem wsbrV (w : List Char) (c : Char) (X z : List Char)
    (hw : ∀ x ∈ w, sChar x = true) (hc1 : sChar c = false) (hc2 : c ≠ 'R') :
    w ++ c :: X ≠ "        Relationships: []".toList ++ z := by
  intro heq
  have h9 : (w ++ c :: X).take 9 =
      ("        Relationships: []".toList ++ z).take 9 := by rw [heq]
  have hlit : ("        Relationships: []".toList).take 9 = "        R".toList := by
    decide
  have h25 : ("        Relationships: []".toList).length = 25 := by decide
  by_cases hlen : w.length ≤ 8
  · have hb : c ∈ (w ++ c :: X).take 9 := by
      rw [List.take_append_eq_append_take]
      refine List.mem_append.mpr (Or.inr ?_)
      have h1 : 1 ≤ 9 - w.length := by omega
      cases h9' : (9 - w.length) with
      | zero => omega
      | succ m => simp [List.take_cons]
    rw [h9, List.take_append_eq_append_take, hlit] at hb
    have hz0 : (9 - ("        Relationships: []".toList).length) = 0 := by omega
    rw [hz0] at hb
    simp at hb
    rcases hb with hb | hb
    · subst hb
      exact absurd hc1 (by decide)
    · exact hc2 hb
  · have hr : 'R' ∈ (w ++ c :: X).take 9 := by
      rw [h9, List.take_append_eq_append_take, hlit]
      have hz0 : (9 - ("        Relationships: []".toList).length) = 0 := by omega
      rw [hz0]
      simp
    have hrw : 'R' ∈ w := by
      rw [List.take_append_eq_append_take] at hr
      have hz0 : 9 - w.length = 0 := by omega
      rw [hz0] at hr
      simp at hr
      exact List.mem_of_mem_take hr
    have := hw 'R' hrw
    exact absurd this (by decide)

theorem lastMText_split (g : LastG) : lastMText g = lastHead g ++ lastTail g := by
  simp [lastMText, lastHead, lastTail, List.append_assoc]

theorem lastRep_split (g : LastG) :
    lastRep g = lastHead g ++ (relMarker ++ lastTail g) := by
  simp [lastRep, lastHead, lastTail, List.append_assoc]

theorem relMarker_cons : relMarker = '\n' :: "        Relationships: []".toList := by
  decide

theorem matchLast_none_of_head {c : Char} (h : c ≠ 'U') (y : List Char) :
    matchLast (c :: y) = none := by
  unfold matchLast
  rw [updAt_head_none h]
  rfl

theorem lastStep_some {t r rest : List Char} (h : lastStep t = some (r, rest)) :
    ∃ g, matchLast t = some (g, rest) ∧ r = lastRep g := by
  unfold lastStep at h
  split at h
  · rename_i g rest' hm
    simp at h
    exact ⟨g, by rw [hm, h.2], h.1.symm⟩
  · simp at h

theorem lastStep_none {t : List Char} (h : matchLast t = none) : lastStep t = none := by
  unfold lastStep
  rw [h]

theorem matchLast_some {t : List Char} {g : LastG} {rest : List Char}
    (h : matchLast t = some (g, rest)) : t = lastMText g ++ rest ∧ LastGood g := by
  unfold matchLast at h
  simp only [Option.bind_eq_some] at h
  obtain ⟨ar, hupd, r1, hnl1, r2, hbr2, r3, hnl2, r4, hbr3, r5, hnl3, h⟩ := h
  obtain ⟨a, r⟩ := ar
  obtain ⟨ht, hane, hab⟩ := updAt_some hupd
  have h2 : r = '\n' :: r1 := expectChar_some hnl1
  have h3 := expectChar_some hbr2
  have h4 := expectChar_some hnl2
  have h5 := expectChar_some hbr3
  have h6 := expectChar_some hnl3
  have hw2 := List.takeWhile_append_dropWhile sChar r1
  have hw3 := List.takeWhile_append_dropWhile sChar r3
  have hw4 := List.takeWhile_append_dropWhile sChar r5
  have hcore : ∀ (kw r7 : List Char), r5.dropWhile sChar = kw ++ r7 →
      t = lastMText ⟨a, r1.takeWhile sChar, r3.takeWhile sChar,
        r5.takeWhile sChar, kw⟩ ++ r7 := by
    intro kw r7 hd
    have e5 : r5 = r5.takeWhile sChar ++ r5.dropWhile sChar := hw4.symm
    rw [hd] at e5
    have e3 : r3 = r3.takeWhile sChar ++ r3.dropWhile sChar := hw3.symm
    rw [h5, h6, e5] at e3
    have e1 : r1 = r1.takeWhile sChar ++ r1.dropWhile sChar := hw2.symm
    rw [h3, h4, e3] at e1
    rw [ht, h2]
    conv_lhs => rw [e1]
    simp [lastMText, List.append_assoc]
  split at h
  · rename_i r7 hdF
    simp only [Option.some_inj, Prod.mk.injEq] at h
    obtain ⟨hg, hrest⟩ := h
    subst hg
    subst hrest
    refine ⟨hcore _ _ (dropLit_some _ _ _ hdF), hane, hab, ?_, ?_, ?_, Or.inl rfl⟩
    · intro c hc
      exact List.mem_takeWhile_imp hc
    · intro c hc
      exact List.mem_takeWhile_imp hc
    · intro c hc
      exact List.mem_takeWhile_imp hc
  · split at h
    · rename_i r7 hdV
      simp only [Option.some_inj, Prod.mk.injEq] at h
      obtain ⟨hg, hrest⟩ := h
      subst hg
      subst hrest
      refine ⟨hcore _ _ (dropLit_some _ _ _ hdV), hane, hab, ?_, ?_, ?_, Or.inr rfl⟩
      · intro c hc
        exact List.mem_takeWhile_imp hc
      · intro c hc
        exact List.mem_takeWhile_imp hc
      · intro c hc
        exact List.mem_takeWhile_imp hc
    · simp at h

theorem matchRel_complete (g : RelG) (hg : RelGood g) (Y : List Char) :
    matchRel (relMText g ++ Y) = some (g, Y) := by
  obtain ⟨a, w2, w3, g4⟩ := g
  obtain ⟨hane, hab, hw2, hw3, hg4ne, hg4w⟩ := hg
  have h1 : relMText ⟨a, w2, w3, g4⟩ ++ Y =
      updOpen ++ a ++ '\x7d' ::
        ('\n' :: (w2 ++ '\x7d' :: '\n' :: (w3 ++ (g4 ++ ':' :: Y)))) := by
    simp [relMText, List.append_assoc]
  rw [h1]
  unfold matchRel
  rw [updAt_append a _ hane hab]
  simp only [Option.some_bind]
  rw [expectChar_cons_self]
  simp only [Option.some_bind]
  have hsp2 := span_split sChar w2 '\x7d' ('\n' :: (w3 ++ (g4 ++ ':' :: Y))) hw2
    (by decide)
  rw [hsp2.1, hsp2.2, expectChar_cons_self]
  simp only [Option.some_bind]
  rw [expectChar_cons_self]
  simp only [Option.some_bind]
  cases g4 with
  | nil => exact absurd rfl hg4ne
  | cons d g4' =>
    have hd : wChar d = true := hg4w d (by simp)
    have hre : w3 ++ ((d :: g4') ++ ':' :: Y) = w3 ++ d :: (g4' ++ ':' :: Y) := by
      simp
    rw [hre]
    have hsp3 := span_split sChar w3 d (g4' ++ ':' :: Y) hw3 (wChar_sChar_false hd)
    rw [hsp3.1, hsp3.2]
    have hre2 : d :: (g4' ++ ':' :: Y) = (d :: g4') ++ ':' :: Y := by simp
    rw [hre2]
    have hsp4 := span_split wChar (d :: g4') ':' Y hg4w (by decide)
    rw [hsp4.1, hsp4.2]
    rw [if_neg (by simp)]
    rw [expectChar_cons_self]
    simp only [Option.some_bind]

theorem matchLast_complete (g : LastG) (hg : LastGood g) (Y : List Char) :
    matchLast (lastMText g ++ Y) = some (g, Y) := by
  obtain ⟨a, w2, w3, w4, kw⟩ := g
  obtain ⟨hane, hab, hw2, hw3, hw4, hkw⟩ := hg
  have h1 : lastMText ⟨a, w2, w3, w4, kw⟩ ++ Y =
      updOpen ++ a ++ '\x7d' ::
        ('\n' :: (w2 ++ '\x7d' :: '\n' ::
          (w3 ++ '\x7d' :: '\n' :: (w4 ++ (kw ++ Y))))) := by
    simp [lastMText, List.append_assoc]
  rw [h1]
  unfold matchLast
  rw [updAt_append a _ hane hab]
  simp only [Option.some_bind]
  rw [expectChar_cons_self]
  simp only [Option.some_bind]
  have hsp2 := span_split sChar w2 '\x7d'
    ('\n' :: (w3 ++ '\x7d' :: '\n' :: (w4 ++ (kw ++ Y)))) hw2 (by decide)
  rw [hsp2.1, hsp2.2, expectChar_cons_self]
  simp only [Option.some_bind]
  rw [expectChar_cons_self]
  simp only [Option.some_bind]
  have hsp3 := span_split sChar w3 '\x7d' ('\n' :: (w4 ++ (kw ++ Y))) hw3 (by decide)
  rw [hsp3.1, hsp3.2, expectChar_cons_self]
  simp only [Option.some_bind]
  rw [expectChar_cons_self]
  simp only [Option.some_bind]
  rcases hkw with hF | hV
  · subst hF
    have hcv : "Functions:".toList ++ Y = 'F' :: ("unctions:".toList ++ Y) := by
      rw [show "Functions:".toList = 'F' :: "unctions:".toList from rfl,
        List.cons_append]
    rw [hcv]
    have hsp4 := span_split sChar w4 'F' ("unctions:".toList ++ Y) hw4 (by decide)
    rw [hsp4.1, hsp4.2, ← hcv, dropLit_self]
  · subst hV
    have hcv : "Views:".toList ++ Y = 'V' :: ("iews:".toList ++ Y) := by
      rw [show "Views:".toList = 'V' :: "iews:".toList from rfl, List.cons_append]
    rw [hcv]
    have hsp4 := span_split sChar w4 'V' ("iews:".toList ++ Y) hw4 (by decide)
    rw [hsp4.1, hsp4.2]
    have hnF : dropLit "Functions:".toList ('V' :: ("iews:".toList ++ Y)) = none := by
      rw [show "Functions:".toList = 'F' :: "unctions:".toList from rfl]
      simp only [dropLit]
      rw [if_neg (by decide)]
    rw [hnF]
    rw [← hcv, dropLit_self]

theorem marker_align_ws (w R2 Z : List Char) (hw : ∀ c ∈ w, sChar c = true)
    (h : relMarker ++ Z = ('\n' :: w) ++ '\x7d' :: R2) : False := by
  rw [relMarker_cons, List.cons_append, List.cons_append] at h
  injection h with h1 h2
  exact wsbr w R2 Z hw h2.symm

theorem marker_align_kw (w4 kw rest Z : List Char)
    (hw4 : ∀ c ∈ w4, sChar c = true)
    (hkw : kw = "Functions:".toList ∨ kw = "Views:".toList)
    (h : relMarker ++ Z = ('\n' :: (w4 ++ kw)) ++ rest) : False := by
  rw [relMarker_cons, List.cons_append, List.cons_append] at h
  injection h with h1 h2
  rw [List.append_assoc] at h2
  rcases hkw with h3 | h3
  · subst h3
    rw [show "Functions:".toList = 'F' :: "unctions:".toList from rfl,
      List.cons_append] at h2
    exact wsbrV w4 'F' _ Z hw4 (by decide) (by decide) h2.symm
  · subst h3
    rw [show "Views:".toList = 'V' :: "iews:".toList from rfl,
      List.cons_append] at h2
    exact wsbrV w4 'V' _ Z hw4 (by decide) (by decide) h2.symm

/-- Locating a brace followed by the marker against the text matched by
`last_table_pattern`: the marker head (spaces then `R`) can align with none
of the three post-brace segments of the match, so the located brace lies
beyond the whole matched text. -/
theorem chopLast (g : LastG) (hg : LastGood g) (P0 rest Z : List Char)
    (heq : lastMText g ++ rest = P0 ++ '\x7d' :: (relMarker ++ Z)) :
    ∃ w, P0 = lastMText g ++ w ∧ rest = w ++ '\x7d' :: (relMarker ++ Z) := by
  obtain ⟨hane, hab, hw2, hw3, hw4, hkw⟩ := hg
  have hA1 : ∀ c ∈ updOpen ++ g.a, c ≠ '\x7d' := by
    intro c hc
    rcases List.mem_append.mp hc with h | h
    · exact updOpen_nb c h
    · exact hab c h
  have hA2 : ∀ c ∈ ('\n' :: g.w2), c ≠ '\x7d' := by
    intro c hc
    rcases List.mem_cons.mp hc with h | h
    · subst h
      decide
    · exact sChar_ne_brace (hw2 c h)
  have hA3 : ∀ c ∈ ('\n' :: g.w3), c ≠ '\x7d' := by
    intro c hc
    rcases List.mem_cons.mp hc with h | h
    · subst h
      decide
    · exact sChar_ne_brace (hw3 c h)
  have hA4 : ∀ c ∈ ('\n' :: (g.w4 ++ g.kw)), c ≠ '\x7d' := by
    intro c hc
    rcases List.mem_cons.mp hc with h | h
    · subst h
      decide
    · rcases List.mem_append.mp h with h1 | h1
      · exact sChar_ne_brace (hw4 c h1)
      · rcases hkw with h2 | h2
        · rw [h2] at h1
          exact (show ∀ x ∈ "Functions:".toList, x ≠ '\x7d' from by decide) c h1
        · rw [h2] at h1
          exact (show ∀ x ∈ "Views:".toList, x ≠ '\x7d' from by decide) c h1
  have hshape : lastMText g ++ rest = (updOpen ++ g.a) ++ '\x7d' ::
      (('\n' :: g.w2) ++ '\x7d' :: (('\n' :: g.w3) ++ '\x7d' ::
        (('\n' :: (g.w4 ++ g.kw)) ++ rest))) := by
    simp [lastMText, List.append_assoc]
  rw [hshape] at heq
  rcases braceChop _ _ _ _ hA1 heq with ⟨e1, e2⟩ | ⟨Y1, e1, e2⟩
  · exact absurd e2 (fun h => marker_align_ws g.w2 _ Z hw2 h)
  · rcases braceChop _ _ _ _ hA2 e2 with ⟨f1, f2⟩ | ⟨Y2, f1, f2⟩
    · exact absurd f2 (fun h => marker_align_ws g.w3 _ Z hw3 h)
    · rcases braceChop _ _ _ _ hA3 f2 with ⟨k1, k2⟩ | ⟨Y3, k1, k2⟩
      · exact absurd k2 (fun h => marker_align_kw g.w4 g.kw rest Z hw4 hkw h)
      · obtain ⟨w, m1, m2⟩ := braceShift _ _ _ _ hA4 k2
        refine ⟨w, ?_, m2⟩
        rw [e1, f1, k1, m1]
        simp [lastMText, List.append_assoc]

/-- Locating a brace followed by the marker against the text matched by
`relationships_pattern`: either the located brace closes the second group
(the marker itself can read as `\n(\s*)(\w+):` with group 4 equal to
`Relationships`), or it lies beyond the whole matched text. -/
theorem chopRel (g : RelG) (hg : RelGood g) (P0 rest Z : List Char)
    (heq : relMText g ++ rest = P0 ++ '\x7d' :: (relMarker ++ Z)) :
    P0 = updOpen ++ g.a ++ '\x7d' :: '\n' :: g.w2 ∨
      ∃ w, P0 = relMText g ++ w ∧ rest = w ++ '\x7d' :: (relMarker ++ Z) := by
  obtain ⟨hane, hab, hw2, hw3, hg4ne, hg4w⟩ := hg
  have hA1 : ∀ c ∈ updOpen ++ g.a, c ≠ '\x7d' := by
    intro c hc
    rcases List.mem_append.mp hc with h | h
    · exact updOpen_nb c h
    · exact hab c h
  have hA2 : ∀ c ∈ ('\n' :: g.w2), c ≠ '\x7d' := by
    intro c hc
    rcases List.mem_cons.mp hc with h | h
    · subst h
      decide
    · exact sChar_ne_brace (hw2 c h)
  have hA3 : ∀ c ∈ ('\n' :: (g.w3 ++ g.g4 ++ [':'])), c ≠ '\x7d' := by
    intro c hc
    rcases List.mem_cons.mp hc with h | h
    · subst h
      decide
    · rcases List.mem_append.mp h with h1 | h1
      · rcases List.mem_append.mp h1 with h2 | h2
        · exact sChar_ne_brace (hw3 c h2)
        · exact wChar_ne_brace (hg4w c h2)
      · simp at h1
        subst h1
        decide
  have hshape : relMText g ++ rest = (updOpen ++ g.a) ++ '\x7d' ::
      (('\n' :: g.w2) ++ '\x7d' :: (('\n' :: (g.w3 ++ g.g4 ++ [':'])) ++ rest)) := by
    simp [relMText, List.append_assoc]
  rw [hshape] at heq
  rcases braceChop _ _ _ _ hA1 heq with ⟨e1, e2⟩ | ⟨Y1, e1, e2⟩
  · exact absurd e2 (fun h => marker_align_ws g.w2 _ Z hw2 h)
  · rcases braceChop _ _ _ _ hA2 e2 with ⟨f1, f2⟩ | ⟨Y2, f1, f2⟩
    · left
      rw [e1, f1]
    · obtain ⟨w, m1, m2⟩ := braceShift _ _ _ _ hA3 f2
      right
      refine ⟨w, ?_, m2⟩
      rw [e1, f1, m1]
      simp [relMText, List.append_assoc]

theorem relMText_len_pos (g : RelG) : 0 < (relMText g).length := by
  have h9 : updOpen.length = 9 := by decide
  simp [relMText, h9]

theorem lastMText_len_pos (g : LastG) : 0 < (lastMText g).length := by
  have h9 : updOpen.length = 9 := by decide
  simp [lastMText, h9]

theorem relRep_len (g : RelG) :
    (relRep g).length = (relMText g).length + relMarker.length := by
  simp [relRep, relMText]
  omega

theorem lastRep_len (g : LastG) :
    (lastRep g).length = (lastMText g).length + relMarker.length := by
  simp [lastRep, lastMText]
  omega

theorem relStep_len {t r rest : List Char} (h : relStep t = some (r, rest)) :
    rest.length < t.length ∧ t.length < r.length + rest.length := by
  obtain ⟨g, hm, hr⟩ := relStep_some h
  obtain ⟨ht, hgood⟩ := matchRel_some hm
  subst hr
  rw [ht]
  have hpos := relMText_len_pos g
  have hrl := relRep_len g
  have hml : relMarker.length = 26 := by decide
  simp only [List.length_append]
  omega

theorem lastStep_len {t r rest : List Char} (h : lastStep t = some (r, rest)) :
    rest.length < t.length ∧ t.length < r.length + rest.length := by
  obtain ⟨g, hm, hr⟩ := lastStep_some h
  obtain ⟨ht, hgood⟩ := matchLast_some hm
  subst hr
  rw [ht]
  have hpos := lastMText_len_pos g
  have hrl := lastRep_len g
  have hml : relMarker.length = 26 := by decide
  simp only [List.length_append]
  omega

theorem subScanF_len_ge (step : List Char → Option (List Char × List Char))
    (hstep : ∀ t r rest, step t = some (r, rest) →
      rest.length < t.length ∧ t.length ≤ r.length + rest.length) :
    ∀ (fuel : Nat) (t : List Char), t.length ≤ fuel →
      t.length ≤ (subScanF step fuel t).length := by
  intro fuel
  induction fuel with
  | zero =>
    intro t h
    exact le_rfl
  | succ n ih =>
    intro t h
    cases t with
    | nil => simp [subScanF]
    | cons c cs =>
      rw [subScanF]
      cases hs : step (c :: cs) with
      | none =>
        dsimp only
        simp only [List.length_cons] at h ⊢
        have h1 := ih cs (by omega)
        omega
      | some pr =>
        obtain ⟨r, rest⟩ := pr
        dsimp only
        obtain ⟨h1, h2⟩ := hstep _ _ _ hs
        simp only [List.length_cons] at h h1 h2 ⊢
        have h3 := ih rest (by omega)
        simp only [List.length_append]
        omega

theorem subScanF_fix_none (step : List Char → Option (List Char × List Char))
    (hstep : ∀ t r rest, step t = some (r, rest) →
      rest.length < t.length ∧ t.length < r.length + rest.length) :
    ∀ (fuel : Nat) (t : List Char), t.length ≤ fuel →
      subScanF step fuel t = t → ∀ z, z <:+ t → step z = none := by
  have hnil : step [] = none := by
    cases hs : step [] with
    | none => rfl
    | some pr =>
      obtain ⟨r, rest⟩ := pr
      have := (hstep _ _ _ hs).1
      simp at this
  intro fuel
  induction fuel with
  | zero =>
    intro t h hfix z hz
    have ht : t = [] := by
      cases t with
      | nil => rfl
      | cons a b => simp at h
    subst ht
    obtain ⟨p, hp⟩ := hz
    have hz0 : z = [] := (List.append_eq_nil.mp hp).2
    subst hz0
    exact hnil
  | succ n ih =>
    intro t h hfix z hz
    cases t with
    | nil =>
      obtain ⟨p, hp⟩ := hz
      have hz0 : z = [] := (List.append_eq_nil.mp hp).2
      subst hz0
      exact hnil
    | cons c cs =>
      rw [subScanF] at hfix
      cases hs : step (c :: cs) with
      | some pr =>
        exfalso
        obtain ⟨r, rest⟩ := pr
        rw [hs] at hfix
        dsimp only at hfix
        obtain ⟨h1, h2⟩ := hstep _ _ _ hs
        have h3 : rest.length ≤ (subScanF step n rest).length := by
          apply subScanF_len_ge step
            (fun t2 r2 rest2 hsx =>
              ⟨(hstep t2 r2 rest2 hsx).1, le_of_lt (hstep t2 r2 rest2 hsx).2⟩)
          simp only [List.length_cons] at h h1
          omega
        have hlen : (r ++ subScanF step n rest).length = (c :: cs).length := by
          rw [hfix]
        simp only [List.length_append, List.length_cons] at hlen h1 h2
        omega
      | none =>
        rw [hs] at hfix
        dsimp only at hfix
        have hcs : subScanF step n cs = cs := by
          injection hfix
        rcases List.suffix_cons_iff.mp hz with hz1 | hz2
        · rw [hz1]
          exact hs
        · exact ih cs (by simp only [List.length_cons] at h; omega) hcs z hz2

theorem relSub_fix_no_match {s : List Char} (h : relSub s = s) :
    ∀ z, z <:+ s → matchRel z = none := by
  intro z hz
  have h' : subScanF relStep s.length s = s := h
  have hstep := subScanF_fix_none relStep (fun t r rest hs => relStep_len hs)
    s.length s le_rfl h' z hz
  cases hm : matchRel z with
  | none => rfl
  | some pr =>
    exfalso
    obtain ⟨g, rest⟩ := pr
    have hsome : relStep z = some (relRep g, rest) := by
      unfold relStep
      rw [hm]
    rw [hsome] at hstep
    exact Option.noConfusion hstep

theorem relLoopF_fixed {s : List Char} (h : relSub s = s) :
    ∀ k, relLoopF k s = s := by
  intro k
  cases k with
  | zero => rfl
  | succ n =>
    rw [relLoopF, h]
    simp

theorem lastTail_nU (g : LastG) (hg : LastGood g) : ∀ c ∈ lastTail g, c ≠ 'U' := by
  obtain ⟨-, -, hw2, hw3, hw4, hkw⟩ := hg
  intro c hc
  unfold lastTail at hc
  rcases List.mem_append.mp hc with hc1 | hc8
  · rcases List.mem_append.mp hc1 with hc2 | hc5
    · rcases List.mem_append.mp hc2 with hc3 | hc4
      · rcases List.mem_cons.mp hc3 with h | h
        · subst h
          decide
        · exact sChar_ne_U (hw2 c h)
      · rcases List.mem_cons.mp hc4 with h | h4
        · subst h
          decide
        · rcases List.mem_cons.mp h4 with h | h
          · subst h
            decide
          · exact sChar_ne_U (hw3 c h)
    · rcases List.mem_cons.mp hc5 with h | h5
      · subst h
        decide
      · rcases List.mem_cons.mp h5 with h | h
        · subst h
          decide
        · exact sChar_ne_U (hw4 c h)
  · rcases hkw with h2 | h2
    · rw [h2] at hc8
      exact (show ∀ x ∈ "Functions:".toList, x ≠ 'U' from by decide) c hc8
    · rw [h2] at hc8
      exact (show ∀ x ∈ "Views:".toList, x ≠ 'U' from by decide) c hc8

/-- No `last_table_pattern` match can start inside a block the last-table
pass has just produced: the inserted marker blocks every alignment. -/
theorem noLast_in_rep (g1 : LastG) (hg1 : LastGood g1) :
    ∀ (z1 : List Char), z1 ≠ [] → z1 <:+ lastRep g1 → ∀ Y,
      matchLast (z1 ++ Y) = none := by
  intro z1 hne hsfx Y
  rw [lastRep_split] at hsfx
  rcases sfxSplit hsfx with h1 | ⟨w, hw, hzeq⟩
  · rcases sfxSplit h1 with h2 | ⟨w', hw', hzeq'⟩
    · cases z1 with
      | nil => exact absurd rfl hne
      | cons c z' =>
        have hc : c ∈ lastTail g1 := h2.subset (by simp)
        rw [List.cons_append]
        exact matchLast_none_of_head (lastTail_nU g1 hg1 c hc) _
    · cases w' with
      | nil =>
        rw [hzeq', List.nil_append]
        have hsh : lastTail g1 ++ Y = '\n' ::
            ((g1.w2 ++ '\x7d' :: '\n' :: g1.w3 ++ '\x7d' :: '\n' :: g1.w4) ++
              (g1.kw ++ Y)) := by
          simp [lastTail, List.append_assoc]
        rw [hsh]
        exact matchLast_none_of_head (by decide) _
      | cons c w'' =>
        have hc : c ∈ relMarker := hw'.subset (by simp)
        rw [hzeq', List.cons_append, List.cons_append]
        exact matchLast_none_of_head (relMarker_nU c hc) _
  · cases w with
    | nil =>
      rw [hzeq, List.nil_append]
      have hsh : (relMarker ++ lastTail g1) ++ Y =
          '\n' :: ("        Relationships: []".toList ++ (lastTail g1 ++ Y)) := by
        rw [relMarker_cons]
        simp
      rw [hsh]
      exact matchLast_none_of_head (by decide) _
    | cons c0 w0 =>
      unfold lastHead at hw
      rcases sfxSplit hw with h3 | ⟨v, hv, hveq⟩
      · obtain ⟨p, hp⟩ := h3
        cases p with
        | cons x xs => simp at hp
        | nil =>
          simp at hp
          obtain ⟨hc0, hw0⟩ := hp
          subst hc0
          subst hw0
          rw [hzeq]
          have hsh : (['\x7d'] ++ (relMarker ++ lastTail g1)) ++ Y =
              '\x7d' :: ((relMarker ++ lastTail g1) ++ Y) := by simp
          rw [hsh]
          exact matchLast_none_of_head (by decide) _
      · have hvb : ∀ c ∈ v, c ≠ '\x7d' := by
          intro c hc
          have hcm : c ∈ updOpen ++ g1.a := hv.subset hc
          rcases List.mem_append.mp hcm with h4 | h4
          · exact updOpen_nb c h4
          · exact hg1.2.1 c h4
        cases hm : matchLast (z1 ++ Y) with
        | none => rfl
        | some pr =>
          exfalso
          obtain ⟨g, rest'⟩ := pr
          obtain ⟨hto, hgo⟩ := matchLast_some hm
          have heq2 : lastMText g ++ rest' =
              v ++ '\x7d' :: (relMarker ++ (lastTail g1 ++ Y)) := by
            rw [← hto, hzeq, hveq]
            simp [List.append_assoc]
          obtain ⟨w2, hP0, -⟩ := chopLast g hgo _ _ _ heq2
          have hbr : '\x7d' ∈ v := by
            rw [hP0]
            have hmem : '\x7d' ∈ lastMText g := by
              simp [lastMText]
            exact List.mem_append.mpr (Or.inl hmem)
          exact hvb '\x7d' hbr rfl

/-- No `relationships_pattern` match can start inside a block the last-table
pass has just produced. -/
theorem noRel_in_lastRep (g1 : LastG) (hg1 : LastGood g1) :
    ∀ (z1 : List Char), z1 ≠ [] → z1 <:+ lastRep g1 → ∀ Y,
      matchRel (z1 ++ Y) = none := by
  intro z1 hne hsfx Y
  rw [lastRep_split] at hsfx
  rcases sfxSplit hsfx with h1 | ⟨w, hw, hzeq⟩
  · rcases sfxSplit h1 with h2 | ⟨w', hw', hzeq'⟩
    · cases z1 with
      | nil => exact absurd rfl hne
      | cons c z' =>
        have hc : c ∈ lastTail g1 := h2.subset (by simp)
        rw [List.cons_append]
        exact matchRel_none_of_head (lastTail_nU g1 hg1 c hc) _
    · cases w' with
      | nil =>
        rw [hzeq', List.nil_append]
        have hsh : lastTail g1 ++ Y = '\n' ::
            ((g1.w2 ++ '\x7d' :: '\n' :: g1.w3 ++ '\x7d' :: '\n' :: g1.w4) ++
              (g1.kw ++ Y)) := by
          simp [lastTail, List.append_assoc]
        rw [hsh]
        exact matchRel_none_of_head (by decide) _
      | cons c w'' =>
        have hc : c ∈ relMarker := hw'.subset (by simp)
        rw [hzeq', List.cons_append, List.cons_append]
        exact matchRel_none_of_head (relMarker_nU c hc) _
  · cases w with
    | nil =>
      rw [hzeq, List.nil_append]
      have hsh : (relMarker ++ lastTail g1) ++ Y =
          '\n' :: ("        Relationships: []".toList ++ (lastTail g1 ++ Y)) := by
        rw [relMarker_cons]
        simp
      rw [hsh]
      exact matchRel_none_of_head (by decide) _
    | cons c0 w0 =>
      unfold lastHead at hw
      rcases sfxSplit hw with h3 | ⟨v, hv, hveq⟩
      · obtain ⟨p, hp⟩ := h3
        cases p with
        | cons x xs => simp at hp
        | nil =>
          simp at hp
          obtain ⟨hc0, hw0⟩ := hp
          subst hc0
          subst hw0
          rw [hzeq]
          have hsh : (['\x7d'] ++ (relMarker ++ lastTail g1)) ++ Y =
              '\x7d' :: ((relMarker ++ lastTail g1) ++ Y) := by simp
          rw [hsh]
          exact matchRel_none_of_head (by decide) _
      · have hvb : ∀ c ∈ v, c ≠ '\x7d' := by
          intro c hc
          have hcm : c ∈ updOpen ++ g1.a := hv.subset hc
          rcases List.mem_append.mp hcm with h4 | h4
          · exact updOpen_nb c h4
          · exact hg1.2.1 c h4
        cases hm : matchRel (z1 ++ Y) with
        | none => rfl
        | some pr =>
          exfalso
          obtain ⟨g, rest'⟩ := pr
          obtain ⟨hto, hgo⟩ := matchRel_some hm
          have heq2 : relMText g ++ rest' =
              v ++ '\x7d' :: (relMarker ++ (lastTail g1 ++ Y)) := by
            rw [← hto, hzeq, hveq]
            simp [List.append_assoc]
          rcases chopRel g hgo _ _ _ heq2 with hL | ⟨w2, hP0, -⟩
          · have hbr : '\x7d' ∈ v := by
              rw [hL]
              simp
            exact hvb '\x7d' hbr rfl
          · have hbr : '\x7d' ∈ v := by
              rw [hP0]
              have hmem : '\x7d' ∈ relMText g := by
                simp [relMText]
              exact List.mem_append.mpr (Or.inl hmem)
            exact hvb '\x7d' hbr rfl

theorem lastStep_none_inv {t : List Char} (h : lastStep t = none) :
    matchLast t = none := by
  cases hm : matchLast t with
  | none => rfl
  | some pr =>
    obtain ⟨g, rest⟩ := pr
    have hsome : lastStep t = some (lastRep g, rest) := by
      unfold lastStep
      rw [hm]
    rw [hsome] at h
    exact Option.noConfusion h

/-- A `last_table_pattern` match at a position the pass left unmatched would
have to complete before the first marker insertion (hence match the input
too); the marker blocks every longer alignment. -/
theorem matchLast_mono : ∀ (fuel : Nat) (t u : List Char), t.length ≤ fuel →
    matchLast (u ++ t) = none →
    matchLast (u ++ subScanF lastStep fuel t) = none := by
  intro fuel
  induction fuel with
  | zero =>
    intro t u h h0
    exact h0
  | succ n ih =>
    intro t u h h0
    cases t with
    | nil => exact h0
    | cons c cs =>
      rw [subScanF]
      cases hs : lastStep (c :: cs) with
      | none =>
        dsimp only
        have h0' : matchLast ((u ++ [c]) ++ cs) = none := by
          simpa using h0
        have hres := ih cs (u ++ [c])
          (by simp only [List.length_cons] at h; omega) h0'
        simpa using hres
      | some pr =>
        obtain ⟨r, rest⟩ := pr
        dsimp only
        obtain ⟨g1, hm1, hr1⟩ := lastStep_some hs
        obtain ⟨ht1, hg1⟩ := matchLast_some hm1
        subst hr1
        cases hout : matchLast (u ++ (lastRep g1 ++ subScanF lastStep n rest)) with
        | none => rfl
        | some pr2 =>
          exfalso
          obtain ⟨g, rest'⟩ := pr2
          obtain ⟨hto, hgo⟩ := matchLast_some hout
          have hre : u ++ (lastRep g1 ++ subScanF lastStep n rest) =
              (u ++ (updOpen ++ g1.a)) ++ '\x7d' ::
                (relMarker ++ (lastTail g1 ++ subScanF lastStep n rest)) := by
            rw [lastRep_split]
            unfold lastHead
            simp [List.append_assoc]
          rw [hre] at hto
          obtain ⟨w, hP0, hrest'⟩ := chopLast g hgo _ _ _ hto.symm
          have hin : u ++ (c :: cs) =
              lastMText g ++ (w ++ '\x7d' :: (lastTail g1 ++ rest)) := by
            rw [ht1]
            have e : u ++ (lastMText g1 ++ rest) =
                (u ++ (updOpen ++ g1.a)) ++ '\x7d' :: (lastTail g1 ++ rest) := by
              rw [lastMText_split g1]
              unfold lastHead
              simp [List.append_assoc]
            rw [e, hP0, List.append_assoc]
          rw [hin, matchLast_complete g hgo] at h0
          exact Option.noConfusion h0

/-- A `relationships_pattern` match at a position the last-table pass left
unmatched would have to complete before the first marker insertion (hence
match the input too): the marker blocks every longer alignment, and the one
alignment reading the marker as group 3/4 would force non-whitespace into a
whitespace group. -/
theorem matchRel_mono : ∀ (fuel : Nat) (t u : List Char), t.length ≤ fuel →
    matchRel (u ++ t) = none →
    matchRel (u ++ subScanF lastStep fuel t) = none := by
  intro fuel
  induction fuel with
  | zero =>
    intro t u h h0
    exact h0
  | succ n ih =>
    intro t u h h0
    cases t with
    | nil => exact h0
    | cons c cs =>
      rw [subScanF]
      cases hs : lastStep (c :: cs) with
      | none =>
        dsimp only
        have h0' : matchRel ((u ++ [c]) ++ cs) = none := by
          simpa using h0
        have hres := ih cs (u ++ [c])
          (by simp only [List.length_cons] at h; omega) h0'
        simpa using hres
      | some pr =>
        obtain ⟨r, rest⟩ := pr
        dsimp only
        obtain ⟨g1, hm1, hr1⟩ := lastStep_some hs
        obtain ⟨ht1, hg1⟩ := matchLast_some hm1
        subst hr1
        cases hout : matchRel (u ++ (lastRep g1 ++ subScanF lastStep n rest)) with
        | none => rfl
        | some pr2 =>
          exfalso
          obtain ⟨g, rest'⟩ := pr2
          obtain ⟨hto, hgo⟩ := matchRel_some hout
          have hre : u ++ (lastRep g1 ++ subScanF lastStep n rest) =
              (u ++ (updOpen ++ g1.a)) ++ '\x7d' ::
                (relMarker ++ (lastTail g1 ++ subScanF lastStep n rest)) := by
            rw [lastRep_split]
            unfold lastHead
            simp [List.append_assoc]
          rw [hre] at hto
          rcases chopRel g hgo _ _ _ hto.symm with hL | ⟨w, hP0, hrest'⟩
          · have hsfx : (updOpen ++ g1.a) <:+
                (updOpen ++ g.a) ++ ('\x7d' :: '\n' :: g.w2) := ⟨u, hL⟩
            rcases sfxSplit hsfx with h4 | ⟨w', hw', hweq⟩
            · have hU : 'U' ∈ ('\x7d' :: '\n' :: g.w2) :=
                h4.subset (List.mem_append.mpr (Or.inl (by decide)))
              rcases List.mem_cons.mp hU with h5 | h5
              · exact absurd h5 (by decide)
              · rcases List.mem_cons.mp h5 with h6 | h6
                · exact absurd h6 (by decide)
                · exact absurd (hgo.2.2.1 'U' h6) (by decide)
            · have hbr : '\x7d' ∈ updOpen ++ g1.a := by
                rw [hweq]
                simp
              rcases List.mem_append.mp hbr with h4 | h4
              · exact updOpen_nb '\x7d' h4 rfl
              · exact hg1.2.1 '\x7d' h4 rfl
          · have hin : u ++ (c :: cs) =
                relMText g ++ (w ++ '\x7d' :: (lastTail g1 ++ rest)) := by
              rw [ht1]
              have e : u ++ (lastMText g1 ++ rest) =
                  (u ++ (updOpen ++ g1.a)) ++ '\x7d' :: (lastTail g1 ++ rest) := by
                rw [lastMText_split g1]
                unfold lastHead
                simp [List.append_assoc]
              rw [e, hP0, List.append_assoc]
            rw [hin, matchRel_complete g hgo] at h0
            exact Option.noConfusion h0

/-- The output of the last-table pass contains no `last_table_pattern` match
at any position: matched sites are consumed (and the marker blocks them),
and unmatched sites stay unmatched. -/
theorem noLast_scan : ∀ (fuel : Nat) (t : List Char), t.length ≤ fuel →
    ∀ z, z <:+ subScanF lastStep fuel t → matchLast z = none := by
  intro fuel
  induction fuel with
  | zero =>
    intro t h z hz
    have ht : t = [] := by
      cases t with
      | nil => rfl
      | cons a b => simp at h
    subst ht
    have hz0 : z = [] := by
      obtain ⟨p, hp⟩ := hz
      exact (List.append_eq_nil.mp hp).2
    subst hz0
    decide
  | succ n ih =>
    intro t h z hz
    cases t with
    | nil =>
      have hz0 : z = [] := by
        obtain ⟨p, hp⟩ := hz
        exact (List.append_eq_nil.mp hp).2
      subst hz0
      decide
    | cons c cs =>
      rw [subScanF] at hz
      cases hs : lastStep (c :: cs) with
      | none =>
        rw [hs] at hz
        dsimp only at hz
        rcases List.suffix_cons_iff.mp hz with hz1 | hz2
        · rw [hz1]
          have h0 : matchLast ([c] ++ cs) = none := by
            simpa using lastStep_none_inv hs
          have hres := matchLast_mono n cs [c]
            (by simp only [List.length_cons] at h; omega) h0
          simpa using hres
        · exact ih cs (by simp only [List.length_cons] at h; omega) z hz2
      | some pr =>
        obtain ⟨r, rest⟩ := pr
        rw [hs] at hz
        dsimp only at hz
        obtain ⟨g1, hm1, hr1⟩ := lastStep_some hs
        obtain ⟨ht1, hg1⟩ := matchLast_some hm1
        subst hr1
        have hrlen : rest.length ≤ n := by
          have hp := lastMText_len_pos g1
          have hlen2 : (c :: cs).length = (lastMText g1).length + rest.length := by
            rw [ht1]
            simp [List.length_append]
          simp only [List.length_cons] at h hlen2
          omega
        rcases sfxSplit hz with hz1 | ⟨z1, hz1, hzeq⟩
        · exact ih rest hrlen z hz1
        · cases z1 with
          | nil =>
            rw [hzeq, List.nil_append]
            exact ih rest hrlen _ List.suffix_rfl
          | cons d z1' =>
            rw [hzeq]
            exact noLast_in_rep g1 hg1 (d :: z1') (by simp) hz1 _

/-- The output of the last-table pass contains no `relationships_pattern`
match at any position, provided the input contained none. -/
theorem noRel_scan : ∀ (fuel : Nat) (t : List Char), t.length ≤ fuel →
    (∀ z, z <:+ t → matchRel z = none) →
    ∀ z, z <:+ subScanF lastStep fuel t → matchRel z = none := by
  intro fuel
  induction fuel with
  | zero =>
    intro t h hin z hz
    exact hin z hz
  | succ n ih =>
    intro t h hin z hz
    cases t with
    | nil =>
      have hz0 : z = [] := by
        obtain ⟨p, hp⟩ := hz
        exact (List.append_eq_nil.mp hp).2
      subst hz0
      decide
    | cons c cs =>
      rw [subScanF] at hz
      cases hs : lastStep (c :: cs) with
      | none =>
        rw [hs] at hz
        dsimp only at hz
        rcases List.suffix_cons_iff.mp hz with hz1 | hz2
        · rw [hz1]
          have h0 : matchRel ([c] ++ cs) = none := by
            simpa using hin (c :: cs) List.suffix_rfl
          have hres := matchRel_mono n cs [c]
            (by simp only [List.length_cons] at h; omega) h0
          simpa using hres
        · exact ih cs (by simp only [List.length_cons] at h; omega)
            (fun z' hz' => hin z' (hz'.trans (List.suffix_cons c cs))) z hz2
      | some pr =>
        obtain ⟨r, rest⟩ := pr
        rw [hs] at hz
        dsimp only at hz
        obtain ⟨g1, hm1, hr1⟩ := lastStep_some hs
        obtain ⟨ht1, hg1⟩ := matchLast_some hm1
        subst hr1
        have hrlen : rest.length ≤ n := by
          have hp := lastMText_len_pos g1
          have hlen2 : (c :: cs).length = (lastMText g1).length + rest.length := by
            rw [ht1]
            simp [List.length_append]
          simp only [List.length_cons] at h hlen2
          omega
        have hin' : ∀ z', z' <:+ rest → matchRel z' = none := by
          intro z' hz'
          exact hin z' (hz'.trans ⟨lastMText g1, ht1.symm⟩)
        rcases sfxSplit hz with hz1 | ⟨z1, hz1, hzeq⟩
        · exact ih rest hrlen hin' z hz1
        · cases z1 with
          | nil =>
            rw [hzeq, List.nil_append]
            exact ih rest hrlen hin' _ List.suffix_rfl
          | cons d z1' =>
            rw [hzeq]
            exact noRel_in_lastRep g1 hg1 (d :: z1') (by simp) hz1 _

theorem insStep_none (rowFields : List (String × List (String × String)))
    {t : List Char} (h : matchIns t = none) : insStep rowFields t = none := by
  unfold insStep
  rw [h]

theorem updStep_none (rowFields : List (String × List (String × String)))
    {t : List Char} (h : matchUpdPat t = none) : updStep rowFields t = none := by
  unfold updStep
  rw [h]

theorem insertSub_id_of_no_match (rowFields : List (String × List (String × String)))
    (s : List Char) (h : ∀ t ∈ s.tails, matchIns t = none) :
    insertSub rowFields s = s := by
  apply subScanF_id
  intro t ht
  exact insStep_none rowFields (h t ht)

theorem updateSub_id_of_no_match (rowFields : List (String × List (String × String)))
    (s : List Char) (h : ∀ t ∈ s.tails, matchUpdPat t = none) :
    updateSub rowFields s = s := by
  apply subScanF_id
  intro t ht
  exact updStep_none rowFields (h t ht)

/-- C4: the whole transform is idempotent on its own output.  When the first
run has eliminated every circular Insert/Update reference — no
`insert_pattern` and no `update_pattern` match is left anywhere in its
output — a second run returns that output byte for byte: neither
substitution pass fires, the relationships loop is already at its fixed
point, and the last-table pass inserts no further marker. -/
theorem c4_idempotent (s : List Char)
    (hIns : ∀ z ∈ (convertTransform s).tails, matchIns z = none)
    (hUpd : ∀ z ∈ (convertTransform s).tails, matchUpdPat z = none) :
    convertTransform (convertTransform s) = convertTransform s ∧
    insertSub (parseRowFields (convertTransform s)) (convertTransform s) =
      convertTransform s ∧
    updateSub (parseRowFields (convertTransform s)) (convertTransform s) =
      convertTransform s ∧
    relSub (convertTransform s) = convertTransform s ∧
    lastSub (convertTransform s) = convertTransform s := by
  have hins : insertSub (parseRowFields (convertTransform s)) (convertTransform s) =
      convertTransform s := insertSub_id_of_no_match _ _ hIns
  have hupd : updateSub (parseRowFields (convertTransform s)) (convertTransform s) =
      convertTransform s := updateSub_id_of_no_match _ _ hUpd
  have hfix : relSub (relFix (updateSub (parseRowFields s)
      (insertSub (parseRowFields s) s))) = relFix (updateSub (parseRowFields s)
      (insertSub (parseRowFields s) s)) :=
    relLoop_reaches _ _ le_rfl
  have hNoRelV : ∀ z, z <:+ relFix (updateSub (parseRowFields s)
      (insertSub (parseRowFields s) s)) → matchRel z = none :=
    relSub_fix_no_match hfix
  have hNoRelT : ∀ z, z <:+ convertTransform s → matchRel z = none := by
    intro z hz
    exact noRel_scan (relFix (updateSub (parseRowFields s)
        (insertSub (parseRowFields s) s))).length
      (relFix (updateSub (parseRowFields s) (insertSub (parseRowFields s) s)))
      le_rfl hNoRelV z hz
  have hNoLastT : ∀ z, z <:+ convertTransform s → matchLast z = none := by
    intro z hz
    exact noLast_scan (relFix (updateSub (parseRowFields s)
        (insertSub (parseRowFields s) s))).length
      (relFix (updateSub (parseRowFields s) (insertSub (parseRowFields s) s)))
      le_rfl z hz
  have hrelT : relSub (convertTransform s) = convertTransform s :=
    relSub_id_of_no_match _ (fun t ht => hNoRelT t ((List.mem_tails t _).mp ht))
  have hlastT : lastSub (convertTransform s) = convertTransform s :=
    lastSub_id_of_no_match _ (fun t ht => hNoLastT t ((List.mem_tails t _).mp ht))
  refine ⟨?_, hins, hupd, hrelT, hlastT⟩
  show lastSub (relFix (updateSub (parseRowFields (convertTransform s))
      (insertSub (parseRowFields (convertTransform s)) (convertTransform s)))) =
    convertTransform s
  rw [hins, hupd]
  have hfx : relFix (convertTransform s) = convertTransform s :=
    relLoopF_fixed hrelT _
  rw [hfx, hlastT]

/-- Witness for C4: a one-character document, whose transform output contains
no circular reference. -/
theorem c4_idempotent_witness :
    (∀ z ∈ (convertTransform "a".toList).tails, matchIns z = none) ∧
    (∀ z ∈ (convertTransform "a".toList).tails, matchUpdPat z = none) ∧
    convertTransform (convertTransform "a".toList) = convertTransform "a".toList :=
  ⟨by decide, by decide, (c4_idempotent "a".toList (by decide) (by decide)).1⟩

/-- C7: the relationships normalizer never raises an error — both
substitution passes are total text transforms — and it skips unmatched
blocks silently, block by block: in an arbitrary document `b ++ v` whose
block `b` matches neither `relationships_pattern` nor `last_table_pattern`
at any of its positions (in the context of the following text `v`), each
pass copies `b` byte for byte — no relationships marker is inserted for it —
while the rest `v` is processed exactly as it would be on its own, including
any insertions for tables that do match there. -/
theorem c7_normalizer_silent_no_boundary (b v : List Char)
    (hrel : ∀ t1 ∈ b.tails, t1 ≠ [] → matchRel (t1 ++ v) = none)
    (hlast : ∀ t1 ∈ b.tails, t1 ≠ [] → matchLast (t1 ++ v) = none) :
    relSub (b ++ v) = b ++ relSub v ∧ lastSub (b ++ v) = b ++ lastSub v := by
  have hlen : b.length + v.length ≤ (b ++ v).length := by simp
  have hsub : (b ++ v).length - b.length = v.length := by simp
  constructor
  · have hn : ∀ t, t ≠ [] → t <:+ b → relStep (t ++ v) = none := fun t ht hs =>
      relStep_none (hrel t ((List.mem_tails t b).mpr hs) ht)
    have h := subScanF_local relStep b v (b ++ v).length hlen hn
    rw [hsub] at h
    exact h
  · have hn : ∀ t, t ≠ [] → t <:+ b → lastStep (t ++ v) = none := fun t ht hs =>
      lastStep_none (hlast t ((List.mem_tails t b).mpr hs) ht)
    have h := subScanF_local lastStep b v (b ++ v).length hlen hn
    rw [hsub] at h
    exact h

/-- Witness for C7 on a mixed document: a malformed table block (its Update
block is followed by `BAD`, matching neither boundary shape) followed by a
well-formed table that does match; the pass copies the malformed block
unchanged and still inserts the marker for the matching table. -/
theorem c7_normalizer_silent_no_boundary_witness :
    relSub ("Update: \x7bx\x7d\nBAD".toList ++ "Update: \x7by\x7d\n \x7d\n t:".toList)
      = "Update: \x7bx\x7d\nBAD".toList ++ relSub "Update: \x7by\x7d\n \x7d\n t:".toList
    ∧ lastSub ("Update: \x7bx\x7d\nBAD".toList ++ "Update: \x7by\x7d\n \x7d\n t:".toList)
      = "Update: \x7bx\x7d\nBAD".toList ++ lastSub "Update: \x7by\x7d\n \x7d\n t:".toList
    ∧ relSub "Update: \x7by\x7d\n \x7d\n t:".toList ≠ "Update: \x7by\x7d\n \x7d\n t:".toList :=
  ⟨(c7_normalizer_silent_no_boundary "Update: \x7bx\x7d\nBAD".toList
      "Update: \x7by\x7d\n \x7d\n t:".toList (by decide) (by decide)).1,
   (c7_normalizer_silent_no_boundary "Update: \x7bx\x7d\nBAD".toList
      "Update: \x7by\x7d\n \x7d\n t:".toList (by decide) (by decide)).2,
   by decide⟩
